import Mathlib

/-!
Verification of the Burrows-Wheeler / FM-index core (`humdum/index/bw.py`),
the read-pair mapping driver (`aligner03/main/atkh.py`) and the
Smith-Waterman alignment example of this repository.

Python strings are modelled as `List Char`, Python non-negative ints as `Nat`
(all quantities in the verified code paths are non-negative; where Python
float arithmetic occurs — `compression_occ * 0.5`, `int(index / bucket_step)`,
`int(np.log2(n))` — it is exact for the machine ranges involved and is
modelled by the corresponding exact integer arithmetic).  List accesses that
Python performs unchecked are modelled with `List.getD`; the accesses proved
below always happen in bounds.  Operations whose Python original can raise
(`ZeroDivisionError` in `rank_bit`, non-termination of the `get_sa` loop)
are modelled with `Option`, `none` standing for the raising/diverging run.
-/

namespace Humdum

/-- Boolean lexicographic strict order on `List Char`, the order Python uses
to compare strings (`'$' < 'A' < 'C' < 'G' < 'N' < 'T'` by code point). -/
def listLexLt : List Char → List Char → Bool
  | [], [] => false
  | [], _ :: _ => true
  | _ :: _, [] => false
  | a :: as, b :: bs => if a < b then true else if a = b then listLexLt as bs else false

/-- Python tuple comparison on `(suffix, offset)` pairs, as used by
`sorted` in `suffix_array_simple`. -/
def pairLe (p q : List Char × Nat) : Bool :=
  listLexLt p.1 q.1 || (p.1 == q.1 && p.2 ≤ q.2)

/-- Insert into a sorted list (helper for the sort in `suffix_array_simple`;
for the total order `pairLe` over pairwise-distinct elements every correct
sort, in particular Python's `sorted`, returns the same list). -/
def insSorted (le : α → α → Bool) (x : α) : List α → List α
  | [] => [x]
  | y :: ys => if le x y then x :: y :: ys else y :: insSorted le x ys

/-- Insertion sort (see `insSorted`). -/
def isort (le : α → α → Bool) : List α → List α
  | [] => []
  | x :: xs => insSorted le x (isort le xs)

/-- `BurrowsWheeler.suffix_array_simple`: sort the pairs
`(text[i:], i)` and return the offsets. -/
def suffix_array_simple (text : List Char) : List Nat :=
  (isort pairLe ((List.range text.length).map (fun i => (text.drop i, i)))).map (·.2)

/-- `BurrowsWheeler.get_bwt`: `BWT[i] = '$'` if `SA[i] == 0`
else `text[SA[i]-1]`. -/
def get_bwt (text : List Char) (sa : List Nat) : List Char :=
  sa.map (fun w => if w = 0 then '$' else text.getD (w - 1) ' ')

/-- `BurrowsWheeler._shifts_f`: cumulative character frequencies of the text
over the fixed symbol order `$ < A < C < G < N < T`.  (The Python dict also
stores `shifts[None] = len(text)`, used only by `query`, which is not needed
here.)  Characters outside the alphabet would raise `KeyError` in Python and
are mapped to `0` here; no verified statement evaluates `f` outside the
alphabet. -/
def shifts_f (text : List Char) : Char → Nat :=
  let count_a := text.count '$'
  let count_c := count_a + text.count 'A'
  let count_g := count_c + text.count 'C'
  let count_n := count_g + text.count 'G'
  let count_t := count_n + text.count 'N'
  fun c =>
    if c = '$' then 0
    else if c = 'A' then count_a
    else if c = 'C' then count_c
    else if c = 'G' then count_g
    else if c = 'N' then count_n
    else if c = 'T' then count_t
    else 0

/-- Loop of `BurrowsWheeler._build_tally` for one symbol: walking
`bw_transform[1:]` with running index `cnt` and running occurrence count
`run`, appending the running count whenever `cnt % comp == 0`. -/
def tallyAux (c : Char) (comp : Nat) : List Char → Nat → Nat → List Nat
  | [], _, _ => []
  | ch :: rest, cnt, run =>
    let run2 := run + (if ch = c then 1 else 0)
    if cnt % comp = 0 then run2 :: tallyAux c comp rest (cnt + 1) run2
    else tallyAux c comp rest (cnt + 1) run2

/-- `BurrowsWheeler._build_tally`, occurrence-table part, for one symbol:
the first entry counts the occurrence in `bw_transform[0:1]`, then samples
are appended at the indices divisible by `comp`.  (Python would raise
`IndexError` on an empty transform; built indexes always have a non-empty
one.) -/
def tallyC (code : List Char) (comp : Nat) (c : Char) : List Nat :=
  match code with
  | [] => []
  | ch0 :: rest =>
    let run0 := if ch0 = c then 1 else 0
    run0 :: tallyAux c comp rest 1 run0

/-- Loop of `BurrowsWheeler._build_tally` for `index_s`: sums
`(item == '$') * count` over `bw_transform[1:]`. -/
def indexSAux : List Char → Nat → Nat
  | [], _ => 0
  | ch :: rest, cnt => (if ch = '$' then cnt else 0) + indexSAux rest (cnt + 1)

/-- `BurrowsWheeler._build_tally`, `index_s` part: starts from
`int(bw_transform[0] == '$')` and adds `(item == '$') * count` for the
remaining positions. -/
def index_s (code : List Char) : Nat :=
  match code with
  | [] => 0
  | ch0 :: rest => (if ch0 = '$' then 1 else 0) + indexSAux rest 1

/-- The compression loop of `BurrowsWheeler.suffix_array` (the
`compression_sa > 1` branch): builds the compressed suffix array, the
sampling bit-vector and the appended part of the bucket table (the bucket's
initial entry `[suffix_array[0] % compression == 0]` is added by the
caller). -/
def compressLoop (comp step : Nat) : List Nat → Nat → Nat → (List Nat × List Bool × List Nat)
  | [], _, _ => ([], [], [])
  | num :: rest, index, rnk =>
    let hit := num % comp = 0
    let rnk2 := if hit then rnk + 1 else rnk
    let (sc, bits, buck) := compressLoop comp step rest (index + 1) rnk2
    (if hit then num :: sc else sc,
     hit :: bits,
     if 0 < index ∧ index % step = 0 then rnk2 :: buck else buck)

/-- The state of a built `BurrowsWheeler` object. -/
structure BW where
  compression_occ : Nat
  compression_sa : Nat
  bucket_step : Nat
  sa : List Nat
  bitvector : List Bool
  bucket : List Nat
  code : List Char
  f : Char → Nat
  tallyT : Char → List Nat
  index_s : Nat

/-- `int(np.log2(n))` by structural recursion (the fuel `n` bounds the
number of halvings); agrees with `Nat.log2` (see `log2C_eq`) but reduces in
the kernel on closed inputs. -/
def log2Aux : Nat → Nat → Nat
  | 0, _ => 0
  | fuel + 1, n => if 2 ≤ n then log2Aux fuel (n / 2) + 1 else 0

/-- `int(np.log2(n))`. -/
def log2C (n : Nat) : Nat := log2Aux n n

/-- `BurrowsWheeler.__init__` on an already sentinel-terminated text, with
the suffix array passed in (the object stores the result of whichever of the
three builder strategies was selected).  For `compression_sa == 1` Python
stores `None` for the bit-vector and the bucket; they are modelled as empty
lists, and no code path reads them in that case. -/
def buildWith (text : List Char) (sa : List Nat) (occ csa : Nat) : BW :=
  let step := log2C text.length
  let code := get_bwt text sa
  if csa = 1 then
    ⟨occ, csa, step, sa, [], [], code, shifts_f text, fun c => tallyC code occ c,
      Humdum.index_s code⟩
  else
    let (sc, bits, buck) := compressLoop csa step sa 0 0
    ⟨occ, csa, step, sc, bits, (if sa.getD 0 0 % csa = 0 then 1 else 0) :: buck,
      code, shifts_f text, fun c => tallyC code occ c, Humdum.index_s code⟩

/-- `BurrowsWheeler(reference_genome, 'Simple', occ, csa)`: appends the
sentinel if missing and builds from `suffix_array_simple`. -/
def build (ref : List Char) (occ csa : Nat) : BW :=
  let text := if ref.getLast? = some '$' then ref else ref ++ ['$']
  buildWith text (suffix_array_simple text) occ csa

/-- The descending scan of `BurrowsWheeler.rank`
(`for up in range(next_row, next_row - next_row % comp, -1)`): counts
matches at `start, start-1, ...`, `steps` many positions. -/
def countDown (code : List Char) (c : Char) : Nat → Nat → Nat
  | _, 0 => 0
  | start, steps + 1 =>
    (if code.getD start ' ' = c then 1 else 0) + countDown code c (start - 1) steps

/-- The ascending scan of `BurrowsWheeler.rank`
(`for down in range(next_row + 1, next_row + comp - next_row % comp + 1)`). -/
def countUp (code : List Char) (c : Char) : Nat → Nat → Nat
  | _, 0 => 0
  | start, steps + 1 =>
    (if code.getD start ' ' = c then 1 else 0) + countUp code c (start + 1) steps

/-- `BurrowsWheeler.rank`.  The Python float comparison
`next_row % comp < comp * 0.5` is the exact test `2 * (i % comp) < comp`. -/
def rank (bw : BW) (c : Char) (i : Nat) : Nat :=
  let occ := bw.compression_occ
  let n := bw.code.length - 1
  if c = '$' then (if bw.index_s ≤ i then 1 else 0)
  else if i % occ = 0 then (bw.tallyT c).getD (i / occ) 0
  else if 2 * (i % occ) < occ || (n / occ) * occ < i then
    (bw.tallyT c).getD (i / occ) 0 + countDown bw.code c i (i % occ)
  else
    (bw.tallyT c).getD (i / occ + 1) 0 - countUp bw.code c (i + 1) (occ - i % occ)

/-- The scan loop of `BurrowsWheeler.rank_bit`
(`for i in range(bucket_index * step + 1, index + 1): rank += bitvector[i]`),
with every access bounds-checked: `none` models Python's `IndexError`. -/
def sumBits (bits : List Bool) : Nat → Nat → Option Nat
  | _, 0 => some 0
  | start, steps + 1 =>
    if start < bits.length then
      match sumBits bits (start + 1) steps with
      | none => none
      | some s => some ((if bits.getD start false then 1 else 0) + s)
    else none

/-- `BurrowsWheeler.rank_bit`.  `int(index / bucket_step)` is float division
in Python: it raises `ZeroDivisionError` when `bucket_step == 0` (modelled by
`none`) and otherwise equals `index / bucket_step` on `Nat`. -/
def rank_bit (bw : BW) (index : Nat) : Option Nat :=
  if bw.compression_sa = 0 then some (index + 1)
  else if bw.bucket_step = 0 then none
  else
    let bi := index / bw.bucket_step
    match sumBits bw.bitvector (bi * bw.bucket_step + 1) (index - bi * bw.bucket_step) with
    | none => none
    | some r =>
      if bi < bw.bucket.length then some (bw.bucket.getD bi 0 + r) else none

/-- The `while self.bitvector[next_row] != 1` loop of
`BurrowsWheeler.get_sa`, with explicit fuel; `none` models a run that does
not reach a sampled row within the fuel. -/
def lfWalk (bw : BW) : Nat → Nat → Nat → Option (Nat × Nat)
  | 0, _, _ => none
  | fuel + 1, row, counter =>
    if bw.bitvector.getD row false then some (row, counter)
    else
      let ch := bw.code.getD row ' '
      let r := rank bw ch row
      lfWalk bw fuel (r + bw.f ch - 1) (counter + 1)

/-- `BurrowsWheeler.get_sa`. -/
def get_sa (bw : BW) (index : Nat) : Option Nat :=
  if bw.compression_sa = 1 then some (bw.sa.getD index 0)
  else if bw.bitvector.getD index false then
    match rank_bit bw index with
    | none => none
    | some rb => some (bw.sa.getD (rb - 1) 0)
  else
    match lfWalk bw bw.code.length index 0 with
    | none => none
    | some (row, counter) =>
      match rank_bit bw row with
      | none => none
      | some rb => some (bw.sa.getD (rb - 1) 0 + counter)

/-- The loop of `BurrowsWheeler.__str__`: repeated LF-mapping from row 0,
prepending the found character each iteration. -/
def reconLoop (bw : BW) : Nat → Nat → Char → List Char → List Char
  | 0, _, _, acc => acc
  | k + 1, row, ch, acc =>
    let r := rank bw ch row
    let row2 := r + bw.f ch - 1
    let ch2 := bw.code.getD row2 ' '
    reconLoop bw k row2 ch2 (ch2 :: acc)

/-- `BurrowsWheeler.__str__`: rebuilds a string by `n - 1` LF-mapping steps
starting from `code[0]`. -/
def reconstructS (bw : BW) : List Char :=
  let n := bw.code.length - 1
  let ch := bw.code.getD 0 ' '
  reconLoop bw (n - 1) 0 ch [ch]

/-- The five reference-alphabet characters (`'$'` is the added sentinel). -/
def alphaChars : List Char := ['A', 'C', 'G', 'N', 'T']

/-- A well-formed sentinel-terminated reference text: ends in `'$'` and all
other characters are from the nucleotide alphabet. -/
def OkText (text : List Char) : Prop :=
  text.getLast? = some '$' ∧ ∀ c ∈ text.dropLast, c ∈ alphaChars

/-- Suffix `p` of the text is lexicographically smaller than suffix `q`. -/
def sLt (text : List Char) (p q : Nat) : Prop :=
  listLexLt (text.drop p) (text.drop q) = true

/-- `sa` is the suffix array of `text`: a permutation of `[0, len(text))`
listing the suffix start offsets in strictly increasing lexicographic order
of the suffixes. -/
def SortedSA (text : List Char) (sa : List Nat) : Prop :=
  sa.Perm (List.range text.length) ∧ sa.Pairwise (sLt text)

/-- The row of the suffix array holding a given suffix offset (the inverse
permutation of `sa`, used only in specifications and proofs). -/
def posIn (sa : List Nat) (p : Nat) : Nat := sa.indexOf p

instance : DecidablePred (OkText) := fun _ => by unfold OkText; infer_instance

instance (text : List Char) (sa : List Nat) : Decidable (SortedSA text sa) := by
  unfold SortedSA sLt; infer_instance

end Humdum

namespace Aligner03

/-- Modelled from the spec: the Smith-Waterman substitution score — the
caller-supplied match cost for equal symbols, else the mismatch cost
(the aligner source `aligner03/align` is not in the provided sources). -/
def swScore (mt ms : Int) (a b : Char) : Int := if a = b then mt else ms

/-- Modelled from the spec: one cell row of the local-alignment scoring
matrix; each cell is `max(0, diag + score, up + gap, left + gap)`
(`mode = local` clamps cell scores at zero). -/
def swRowAux (mt ms gap : Int) (rchar : Char) : List Char → List Int → Int → Int → List Int
  | [], _, _, _ => []
  | qc :: qrest, prevRest, diag, left =>
    let up := prevRest.headD 0
    let v := max 0 (max (diag + swScore mt ms rchar qc) (max (up + gap) (left + gap)))
    v :: swRowAux mt ms gap rchar qrest prevRest.tail up v

/-- Modelled from the spec: scoring-matrix row for one reference symbol,
first column clamped to `0`. -/
def swRow (mt ms gap : Int) (rchar : Char) (query : List Char) (prev : List Int) : List Int :=
  0 :: swRowAux mt ms gap rchar query (prev.drop 1) (prev.headD 0) 0

/-- Modelled from the spec: the rows of the scoring matrix below the zero
row, one per reference symbol. -/
def swRowsAux (mt ms gap : Int) (query : List Char) : List Char → List Int → List (List Int)
  | [], _ => []
  | rc :: rrest, prev =>
    let r := swRow mt ms gap rc query prev
    r :: swRowsAux mt ms gap query rrest r

/-- Modelled from the spec: the `(|ref|+1) x (|query|+1)` Smith-Waterman
scoring matrix. -/
def swMatrix (mt ms gap : Int) (ref query : List Char) : List (List Int) :=
  let row0 := List.replicate (query.length + 1) 0
  row0 :: swRowsAux mt ms gap query ref row0

/-- Maximal entry of the scoring matrix (at least `0`, the empty local
alignment). -/
def matMax (mat : List (List Int)) : Int :=
  (mat.map (fun r => r.foldl max 0)).foldl max 0

/-- Modelled from the spec: the first maximal-score cell in row-major order
(the orchestrator only ever consumes the first alignment). -/
def firstMaxCell (mat : List (List Int)) : Nat × Nat :=
  let mx := matMax mat
  let i := mat.findIdx (fun r => r.any (fun v => v == mx))
  (i, (mat.getD i []).findIdx (fun v => v == mx))

/-- Modelled from the spec: traceback from a cell, walking the
best-predecessor direction with the deterministic tie-break
diagonal > up > left, until a zero-score cell; emits
`(op, ref_index, query_index)` triples in alignment order, with ops
`'='` match, `'X'` mismatch, `'D'` gap in query (up), `'I'` gap in
reference (left). -/
def swTrace (mt ms gap : Int) (ref query : List Char) (mat : List (List Int)) :
    Nat → Nat × Nat → List (Char × Nat × Nat)
  | 0, _ => []
  | fuel + 1, (i, j) =>
    let hij := (mat.getD i []).getD j 0
    if hij ≤ 0 then []
    else if i = 0 || j = 0 then []
    else
      let a := ref.getD (i - 1) ' '
      let b := query.getD (j - 1) ' '
      let diag := (mat.getD (i - 1) []).getD (j - 1) 0
      let up := (mat.getD (i - 1) []).getD j 0
      if hij = diag + swScore mt ms a b then
        swTrace mt ms gap ref query mat fuel (i - 1, j - 1) ++
          [((if a = b then '=' else 'X'), i - 1, j - 1)]
      else if hij = up + gap then
        swTrace mt ms gap ref query mat fuel (i - 1, j) ++ [('D', i - 1, j)]
      else
        swTrace mt ms gap ref query mat fuel (i, j - 1) ++ [('I', i, j - 1)]

/-- Modelled from the spec: the edit script of the first (row-major first
maximal cell) local alignment of `query` against `ref`. -/
def swAlignOps (mt ms gap : Int) (ref query : List Char) : List (Char × Nat × Nat) :=
  let mat := swMatrix mt ms gap ref query
  swTrace mt ms gap ref query mat (ref.length + query.length + 1) (firstMaxCell mat)

/-- Accumulator loop for `matchBlocks`: merges adjacent match operations
into maximal runs of reference positions. -/
def blocksAux : List (Char × Nat × Nat) → Option (Nat × Nat) → List (Nat × Nat)
  | [], some b => [b]
  | [], none => []
  | (o, i, _) :: rest, cur =>
    if o = '=' then
      match cur with
      | some (s, e) =>
        if i = e then blocksAux rest (some (s, e + 1))
        else (s, e) :: blocksAux rest (some (i, i + 1))
      | none => blocksAux rest (some (i, i + 1))
    else
      match cur with
      | some b => b :: blocksAux rest none
      | none => blocksAux rest none

/-- Modelled from the spec: run-length-merged matching subsegments of an
edit script, as 0-based half-open reference spans. -/
def matchBlocks (ops : List (Char × Nat × Nat)) : List (Nat × Nat) :=
  blocksAux ops none

/-- Accumulator loop for `cigarOf`: run-length merge of adjacent equal
operations. -/
def cigarAux : List (Char × Nat × Nat) → Option (Char × Nat) → List (Nat × Char)
  | [], some (o, n) => [(n, o)]
  | [], none => []
  | (o, _, _) :: rest, some (o2, n) =>
    if o = o2 then cigarAux rest (some (o2, n + 1))
    else (n, o2) :: cigarAux rest (some (o, 1))
  | (o, _, _) :: rest, none => cigarAux rest (some (o, 1))

/-- Modelled from the spec: the CIGAR-equivalent run-length edit script of
an alignment. -/
def cigarOf (ops : List (Char × Nat × Nat)) : List (Nat × Char) :=
  cigarAux ops none

/-- Modelled from the spec: a parsed read — name, bases, Phred quality
string and orientation flag (the `aligner03.io.Read` class is not in the
provided sources). -/
structure Read where
  name : List Char
  seq : List Char
  qual : List Char
  is_forward : Bool
deriving DecidableEq, Inhabited

/-- Modelled from the spec: nucleotide complement. -/
def compl (c : Char) : Char :=
  if c = 'A' then 'T' else if c = 'T' then 'A'
  else if c = 'C' then 'G' else if c = 'G' then 'C' else c

/-- Modelled from the spec: `read.reversed`, the derived reverse-complement
view with the opposite orientation flag. -/
def Read.rev (r : Read) : Read :=
  ⟨r.name, (r.seq.map compl).reverse, r.qual.reverse, !r.is_forward⟩

/-- Modelled from the spec: the externally visible aligned segment — name,
strand flag, secondary flag, CIGAR, 1-based position, sequence, quality and
mate position (the `aligner03.io.AlignedSegment` class is not in the
provided sources). -/
structure Seg where
  qname : List Char
  is_minus_strand : Bool
  is_secondary : Bool
  cigar : List (Nat × Char)
  pos : Nat
  seq : List Char
  qual : List Char
  pnext : Nat
deriving DecidableEq, Inhabited

/-- Modelled from the spec: `numpy.percentile(xs, 50, interpolation='nearest')`
— the element of the sorted list at the index nearest to `(n-1)/2`
(numpy rounds the half-way case to the even index). -/
def percentile50 (l : List Nat) : Nat :=
  let s := Humdum.isort (fun a b => decide (a ≤ b)) l
  let t := l.length - 1
  let idx := if t % 2 = 0 then t / 2 else (if (t / 2) % 2 = 0 then t / 2 else t / 2 + 1)
  s.getD idx 0

/-- `AllTheKingsHorses.select_option`: the seed hit whose reference offset
equals the nearest-rank median of the hits' reference offsets (first such
hit; the first hit overall when none coincides — Python's
`max(options, key=(lambda x: (x[3] == j)))`).  A seed hit is modelled by
its `(loc_in_read, loc_in_ref)` pair; the `None` and quality components of
the Python tuple are never read. -/
def select_option (options : List (Nat × Nat)) : Nat × Nat :=
  let j := percentile50 (options.map (·.2))
  match options.find? (fun x => x.2 == j) with
  | some x => x
  | none => options.headD (0, 0)

/-- Modelled from the spec: `propose_window` — a reference sub-window around
the seed's implied read start, sized to contain the full read with slack for
indels, clipped to `[0, ref_length)` (the `aligner03.map` module is not in
the provided sources). -/
def propose_window (read_length read_loc ref_length ref_loc : Nat) : Nat × Nat :=
  let anchor := ref_loc - read_loc
  (anchor - read_length, min ref_length (anchor + 2 * read_length))

/-- `AllTheKingsHorses.map_one` with `decide=True`: query both orientations
and keep the one with more seed hits, the forward one on ties (Python's
`max` over the insertion-ordered dict items returns the first maximal item).
The seeding/index lookup (`random_kmers` plus `index.query`, both outside
the provided sources) is abstracted into the `hits` function. -/
def map_one (hits : Read → List (Nat × Nat)) (r : Read) : Read × List (Nat × Nat) :=
  let fwd := (r, hits r)
  let rev := (r.rev, hits r.rev)
  if rev.2.length > fwd.2.length then rev else fwd

/-- The per-read body of `AllTheKingsHorses.map_pair`: pick the consensus
seed, propose a window, align the read against the window (first alignment
of the spec-modelled Smith-Waterman aligner), and populate the segment.
`pnext` is attached later by `map_pair`. -/
def mkSeg (refG : List Char) (read : Read) (options : List (Nat × Nat)) : Seg :=
  let io := select_option options
  let w := propose_window read.seq.length io.1 refG.length io.2
  let wseg := (refG.drop w.1).take (w.2 - w.1)
  let tr := swAlignOps 1 (-1) (-2) wseg read.seq
  let loc := (tr.headD ('=', 0, 0)).2.1 + w.1
  { qname := read.name, is_minus_strand := !read.is_forward, is_secondary := false,
    cigar := cigarOf tr, pos := loc + 1, seq := read.seq, qual := read.qual, pnext := 0 }

/-- `AllTheKingsHorses.map_pair`: decide both orientations, raise
`UnmappedReadpair` (modelled by `Except.error ()`) when both reads resolve
to the same strand or either option list is empty, otherwise build both
segments and cross-assign the mate positions. -/
def map_pair (hits : Read → List (Nat × Nat)) (refG : List Char) (r1 r2 : Read) :
    Except Unit (Seg × Seg) :=
  let m1 := map_one hits r1
  let m2 := map_one hits r2
  if m1.1.is_forward = m2.1.is_forward then .error ()
  else if m1.2.isEmpty || m2.2.isEmpty then .error ()
  else
    let s1 := mkSeg refG m1.1 m1.2
    let s2 := mkSeg refG m2.1 m2.2
    .ok ({ s1 with pnext := s2.pos }, { s2 with pnext := s1.pos })

/-- Whether a `map_pair` run succeeded. -/
def expOk : Except Unit (Seg × Seg) → Bool
  | .ok _ => true
  | .error _ => false

/-- `AllTheKingsHorses.map_paired`: map the stream of pairs in order,
catching `UnmappedReadpair` per pair, counting it and continuing (the
order-consistency assertion and the FASTQ readers are collaborators outside
the provided sources; the stream is modelled as the list of read pairs). -/
def map_paired (hits : Read → List (Nat × Nat)) (refG : List Char)
    (pairs : List (Read × Read)) : List Seg × Nat :=
  pairs.foldl
    (fun acc pr =>
      match map_pair hits refG pr.1 pr.2 with
      | .ok (s1, s2) => (acc.1 ++ [s1, s2], acc.2)
      | .error _ => (acc.1, acc.2 + 1))
    ([], 0)

/-- A concrete read used to exercise `map_pair` on a mappable pair. -/
def r1W : Read := ⟨"r1".toList, "ACGT".toList, "IIII".toList, true⟩

/-- A concrete mate for `r1W`; its reverse complement is the anchored
orientation. -/
def r2W : Read := ⟨"r2".toList, "ACGT".toList, "IIII".toList, true⟩

/-- A concrete reference genome for the `map_pair` runs. -/
def refW : List Char := "ACGTACGTACGT".toList

/-- A concrete seed-hit oracle: the forward `r1W` anchors at reference
offset 2, the reverse complement of `r2W` at offset 8, everything else has
no hits. -/
def hitsW : Read → List (Nat × Nat) := fun r =>
  if r = r1W then [(0, 2)] else if r = r2W.rev then [(0, 8)] else []

/-- The result of the concrete mappable `map_pair` run. -/
def wres : Except Unit (Seg × Seg) := map_pair hitsW refW r1W r2W

/-- First segment of the concrete run (`default` is unreachable). -/
def ws1 : Seg :=
  match wres with
  | .ok p => p.1
  | .error _ => default

/-- Second segment of the concrete run. -/
def ws2 : Seg :=
  match wres with
  | .ok p => p.2
  | .error _ => default

end Aligner03

/-! ### Generic list lemmas -/

namespace Humdum

theorem log2Aux_eq : ∀ (fuel n : Nat), n ≤ fuel → log2Aux fuel n = Nat.log2 n := by
  intro fuel
  induction fuel with
  | zero =>
    intro n hn
    have hz : n = 0 := by omega
    subst hz
    rw [Nat.log2]
    rfl
  | succ fuel ih =>
    intro n hn
    show (if 2 ≤ n then log2Aux fuel (n / 2) + 1 else 0) = Nat.log2 n
    by_cases h2 : 2 ≤ n
    · have hrec : n / 2 ≤ fuel := by
        have := Nat.div_lt_self (show 0 < n by omega) (show 1 < 2 by omega)
        omega
      rw [if_pos h2, ih _ hrec]
      conv_rhs => rw [Nat.log2]
      rw [if_pos h2]
    · rw [if_neg h2]
      conv_rhs => rw [Nat.log2]
      rw [if_neg h2]

theorem log2C_eq (n : Nat) : log2C n = Nat.log2 n :=
  log2Aux_eq n n (Nat.le_refl n)

theorem map_getD_range (l : List α) (d : α) :
    (List.range l.length).map (fun i => l.getD i d) = l := by
  apply List.ext_getElem
  · simp
  · intro i h1 h2
    simp only [List.getElem_map, List.getElem_range]
    exact List.getD_eq_getElem l d h2

theorem countP_eq_range (l : List α) (d : α) (p : α → Bool) :
    l.countP p = (List.range l.length).countP (fun i => p (l.getD i d)) := by
  conv_lhs => rw [← map_getD_range l d]
  rw [List.countP_map]
  rfl

theorem countP_orB (p q : α → Bool) (l : List α)
    (h : ∀ a ∈ l, ¬(p a = true ∧ q a = true)) :
    l.countP (fun a => p a || q a) = l.countP p + l.countP q := by
  induction l with
  | nil => simp
  | cons x xs ih =>
    have hx := h x (List.mem_cons_self x xs)
    have ih' := ih (fun a ha => h a (List.mem_cons_of_mem x ha))
    simp only [List.countP_cons, ih', Bool.or_eq_true]
    by_cases hp : p x = true <;> by_cases hq : q x = true <;> simp [hp, hq] at hx ⊢ <;> omega

theorem count_eq_countP_eq [DecidableEq α] (l : List α) (c : α) :
    l.count c = l.countP (fun a => decide (a = c)) := by
  rw [List.count]
  apply List.countP_congr
  intro a _
  simp

theorem count_take_range [DecidableEq α] (l : List α) (d : α) (c : α) (k : Nat)
    (hk : k ≤ l.length) :
    (l.take k).count c = (List.range k).countP (fun r => decide (l.getD r d = c)) := by
  rw [count_eq_countP_eq, countP_eq_range (l.take k) d]
  have hlen : (l.take k).length = k := by simp [hk]
  rw [hlen]
  apply List.countP_congr
  intro r hr
  have hrk : r < k := List.mem_range.mp hr
  have h1 : (l.take k).getD r d = l.getD r d := by
    rw [List.getD_eq_getElem _ _ (by simpa [hlen] using hrk), List.getElem_take,
      List.getD_eq_getElem _ _ (lt_of_lt_of_le hrk hk)]
  rw [h1]

theorem count_take_unique [DecidableEq α] (l : List α) (c : α) (p : Nat)
    (hp : p < l.length) (hc : l[p] = c)
    (huniq : ∀ q (hq : q < l.length), l[q] = c → q = p) :
    ∀ i, (l.take i).count c = if p < i then 1 else 0 := by
  intro i
  induction i with
  | zero => simp
  | succ i ih =>
    rw [List.take_succ, List.count_append, ih]
    by_cases hi : i < l.length
    · rw [List.getElem?_eq_getElem hi]
      by_cases hci : l[i] = c
      · have : i = p := huniq i hi hci
        subst this
        simp [hci, Nat.lt_irrefl]
      · have hne : i ≠ p := fun h => hci (h ▸ hc)
        have hcnt : (some l[i]).toList.count c = 0 := by
          simp [List.count_cons, hci]
        rw [hcnt, Nat.add_zero]
        have hiff : (p < i + 1) ↔ (p < i) := by omega
        exact if_congr hiff.symm rfl rfl
    · rw [List.getElem?_eq_none (Nat.le_of_not_lt hi)]
      have h1 : p < i := lt_of_lt_of_le hp (Nat.le_of_not_lt hi)
      simp [h1, Nat.lt_succ_of_lt h1]

theorem countP_pos_of_getElem (l : List α) (p : α → Bool) (i : Nat) (hi : i < l.length)
    (hp : p l[i] = true) : 1 ≤ (l.take (i + 1)).countP p := by
  rw [List.take_succ, List.countP_append, List.getElem?_eq_getElem hi]
  simp [hp]

theorem filter_getD_countP (l : List α) (d : α) (p : α → Bool) :
    ∀ i, (hi : i < l.length) → p l[i] = true →
      (l.filter p).getD ((l.take (i + 1)).countP p - 1) d = l[i] := by
  induction l with
  | nil => intro i hi; simp at hi
  | cons x xs ih =>
    intro i hi hp
    cases i with
    | zero =>
      simp only [List.getElem_cons_zero] at hp ⊢
      simp [List.filter_cons, hp, List.countP_cons]
    | succ i =>
      simp only [List.getElem_cons_succ] at hp ⊢
      have hix : i < xs.length := by simpa using hi
      have hpos : 1 ≤ (xs.take (i + 1)).countP p := countP_pos_of_getElem xs p i hix hp
      have htake : (x :: xs).take (i + 1 + 1) = x :: xs.take (i + 1) := rfl
      rw [htake, List.countP_cons, List.filter_cons]
      by_cases hx : p x = true
      · rw [if_pos hx, if_pos hx]
        have harith : (xs.take (i + 1)).countP p + 1 - 1 = ((xs.take (i + 1)).countP p - 1) + 1 := by
          omega
        rw [harith, List.getD_cons_succ]
        exact ih i hix hp
      · rw [if_neg hx, if_neg hx, Nat.add_zero]
        exact ih i hix hp

end Humdum

/-! ### The lexicographic order on suffixes -/

namespace Humdum

theorem lex_irrefl : ∀ l : List Char, listLexLt l l = false := by
  intro l
  induction l with
  | nil => rfl
  | cons a as ih => simp [listLexLt, ih]

theorem lex_cons_iff {a b : Char} {l1 l2 : List Char} :
    listLexLt (a :: l1) (b :: l2) = true ↔ a < b ∨ (a = b ∧ listLexLt l1 l2 = true) := by
  simp only [listLexLt]
  by_cases hab : a < b
  · simp [hab]
  · by_cases heq : a = b
    · simp [hab, heq]
    · simp [hab, heq]

theorem lex_trans : ∀ {l1 l2 l3 : List Char},
    listLexLt l1 l2 = true → listLexLt l2 l3 = true → listLexLt l1 l3 = true := by
  intro l1
  induction l1 with
  | nil =>
    intro l2 l3 h12 h23
    cases l3 with
    | nil =>
      cases l2 with
      | nil => exact h12
      | cons b bs => simp [listLexLt] at h23
    | cons c cs => rfl
  | cons a as ih =>
    intro l2 l3 h12 h23
    cases l2 with
    | nil => simp [listLexLt] at h12
    | cons b bs =>
      cases l3 with
      | nil => simp [listLexLt] at h23
      | cons c cs =>
        rcases lex_cons_iff.mp h12 with hab | ⟨hab, hrest12⟩ <;>
          rcases lex_cons_iff.mp h23 with hbc | ⟨hbc, hrest23⟩
        · exact lex_cons_iff.mpr (Or.inl (lt_trans hab hbc))
        · exact lex_cons_iff.mpr (Or.inl (hbc ▸ hab))
        · exact lex_cons_iff.mpr (Or.inl (hab ▸ hbc))
        · exact lex_cons_iff.mpr (Or.inr ⟨hab.trans hbc, ih hrest12 hrest23⟩)

theorem lex_total : ∀ l1 l2 : List Char, l1 ≠ l2 →
    listLexLt l1 l2 = true ∨ listLexLt l2 l1 = true := by
  intro l1
  induction l1 with
  | nil =>
    intro l2 hne
    cases l2 with
    | nil => exact absurd rfl hne
    | cons b bs => exact Or.inl rfl
  | cons a as ih =>
    intro l2 hne
    cases l2 with
    | nil => exact Or.inr rfl
    | cons b bs =>
      by_cases hab : a = b
      · subst hab
        have hne' : as ≠ bs := fun h => hne (h ▸ rfl)
        rcases ih bs hne' with h | h
        · exact Or.inl (lex_cons_iff.mpr (Or.inr ⟨rfl, h⟩))
        · exact Or.inr (lex_cons_iff.mpr (Or.inr ⟨rfl, h⟩))
      · rcases lt_or_gt_of_ne hab with h | h
        · exact Or.inl (lex_cons_iff.mpr (Or.inl h))
        · exact Or.inr (lex_cons_iff.mpr (Or.inl h))

theorem lex_asymm {l1 l2 : List Char} (h : listLexLt l1 l2 = true) :
    listLexLt l2 l1 = false := by
  by_contra hc
  have h2 : listLexLt l2 l1 = true := by
    cases hv : listLexLt l2 l1
    · exact absurd hv hc
    · rfl
  have := lex_trans h h2
  rw [lex_irrefl] at this
  exact Bool.false_ne_true this

end Humdum

/-! ### Sorted suffix arrays -/

namespace Humdum

theorem ssa_length {text : List Char} {sa : List Nat} (hs : SortedSA text sa) :
    sa.length = text.length := by
  simpa using hs.1.length_eq

theorem ssa_mem {text : List Char} {sa : List Nat} (hs : SortedSA text sa) {p : Nat} :
    p ∈ sa ↔ p < text.length := by
  rw [hs.1.mem_iff, List.mem_range]

theorem ssa_nodup {text : List Char} {sa : List Nat} (hs : SortedSA text sa) : sa.Nodup :=
  hs.1.nodup_iff.mpr (List.nodup_range _)

theorem ssa_elem_lt {text : List Char} {sa : List Nat} (hs : SortedSA text sa) {r : Nat}
    (hr : r < sa.length) : sa[r] < text.length :=
  (ssa_mem hs).mp (List.getElem_mem hr)

theorem suffix_ne {text : List Char} {p q : Nat} (hp : p < text.length)
    (hq : q < text.length) (hne : p ≠ q) : text.drop p ≠ text.drop q := by
  intro h
  have := congrArg List.length h
  simp only [List.length_drop] at this
  omega

theorem ssa_lt_of_index {text : List Char} {sa : List Nat} (hs : SortedSA text sa) {i j : Nat}
    (hi : i < sa.length) (hj : j < sa.length) (hij : i < j) : sLt text sa[i] sa[j] :=
  (List.pairwise_iff_getElem.mp hs.2) i j hi hj hij

theorem ssa_index_lt_iff {text : List Char} {sa : List Nat} (hs : SortedSA text sa) {i j : Nat}
    (hi : i < sa.length) (hj : j < sa.length) : sLt text sa[i] sa[j] ↔ i < j := by
  constructor
  · intro h
    by_contra hc
    rcases Nat.lt_or_ge j i with hji | hji
    · have h2 := ssa_lt_of_index hs hj hi hji
      rw [sLt] at h h2
      exact Bool.false_ne_true ((lex_asymm h) ▸ h2)
    · have : i = j := Nat.le_antisymm hji (Nat.le_of_not_lt hc)
      subst this
      rw [sLt, lex_irrefl] at h
      exact Bool.false_ne_true h
  · exact ssa_lt_of_index hs hi hj

theorem posIn_lt {text : List Char} {sa : List Nat} (hs : SortedSA text sa) {p : Nat}
    (hp : p < text.length) : posIn sa p < sa.length := by
  rw [posIn]
  exact List.indexOf_lt_length.mpr ((ssa_mem hs).mpr hp)

theorem getElem_posIn {text : List Char} {sa : List Nat} (hs : SortedSA text sa) {p : Nat}
    (hp : p < text.length) (hq : posIn sa p < sa.length) : sa[posIn sa p] = p :=
  List.getElem_indexOf hq

theorem posIn_eq_of_getElem {text : List Char} {sa : List Nat} (hs : SortedSA text sa)
    {r p : Nat} (hr : r < sa.length) (hrp : sa[r] = p) : posIn sa p = r := by
  have hp : p < text.length := hrp ▸ ssa_elem_lt hs hr
  have hq : posIn sa p < sa.length := posIn_lt hs hp
  have h1 : sa[posIn sa p] = sa[r] := by
    rw [getElem_posIn hs hp hq, hrp]
  exact ((ssa_nodup hs).getElem_inj_iff).mp h1

theorem ssa_row_countP {text : List Char} {sa : List Nat} (hs : SortedSA text sa) {row : Nat}
    (hrow : row < sa.length) :
    sa.countP (fun q => listLexLt (text.drop q) (text.drop sa[row])) = row := by
  set x := sa[row] with hxdef
  have hsplit : sa.take row ++ sa.drop row = sa := List.take_append_drop row sa
  have hdrop : sa.drop row = x :: sa.drop (row + 1) := List.drop_eq_getElem_cons hrow
  have hpw : List.Pairwise (sLt text) (sa.take row ++ sa.drop row) := by
    rw [hsplit]; exact hs.2
  rcases List.pairwise_append.mp hpw with ⟨_, hpw2, hcross⟩
  conv_lhs => rw [← hsplit]
  rw [List.countP_append]
  have h1 : (sa.take row).countP (fun q => listLexLt (text.drop q) (text.drop x)) = row := by
    rw [List.countP_eq_length.mpr, List.length_take]
    · omega
    · intro a ha
      exact hcross a ha x (hdrop ▸ List.mem_cons_self _ _)
  have h2 : (sa.drop row).countP (fun q => listLexLt (text.drop q) (text.drop x)) = 0 := by
    rw [List.countP_eq_zero]
    intro a ha
    rw [hdrop] at ha hpw2
    rcases List.mem_cons.mp ha with rfl | ha2
    · simp [lex_irrefl]
    · have := (List.pairwise_cons.mp hpw2).1 a ha2
      rw [sLt] at this
      simp [lex_asymm this]
  omega

theorem posIn_countP_range {text : List Char} {sa : List Nat} (hs : SortedSA text sa) {x : Nat}
    (hx : x < text.length) :
    posIn sa x =
      (List.range text.length).countP (fun q => listLexLt (text.drop q) (text.drop x)) := by
  have h0 := ssa_row_countP hs (posIn_lt hs hx)
  rw [getElem_posIn hs hx (posIn_lt hs hx)] at h0
  rw [← h0]
  exact hs.1.countP_eq _

end Humdum

/-! ### Well-formed texts and the Burrows-Wheeler string -/

namespace Humdum

theorem alpha_ne_sentinel {c : Char} (hc : c ∈ alphaChars) : c ≠ '$' := by
  simp only [alphaChars, List.mem_cons, List.mem_singleton] at hc
  rcases hc with rfl | rfl | rfl | rfl | (rfl | h)
  · decide
  · decide
  · decide
  · decide
  · decide
  · simp at h

theorem alpha_gt_sentinel {c : Char} (hc : c ∈ alphaChars) : '$' < c := by
  simp only [alphaChars, List.mem_cons, List.mem_singleton] at hc
  rcases hc with rfl | rfl | rfl | rfl | (rfl | h)
  · decide
  · decide
  · decide
  · decide
  · decide
  · simp at h

theorem okt_ne_nil {text : List Char} (h : OkText text) : text ≠ [] := by
  intro he
  rw [he] at h
  simp [OkText] at h

theorem okt_length_pos {text : List Char} (h : OkText text) : 0 < text.length :=
  List.length_pos.mpr (okt_ne_nil h)

theorem okt_last {text : List Char} (h : OkText text) (hpos : 0 < text.length) :
    text[text.length - 1] = '$' := by
  have h1 := h.1
  rw [List.getLast?_eq_getElem?] at h1
  have h2 : text[text.length - 1]? = some (text[text.length - 1]) :=
    List.getElem?_eq_getElem (by omega)
  rw [h2] at h1
  exact (Option.some_injective _ h1)

theorem okt_alpha {text : List Char} (h : OkText text) {i : Nat} (hi : i < text.length - 1) :
    text[i] ∈ alphaChars := by
  have hlen : text.dropLast.length = text.length - 1 := by
    rw [List.dropLast_eq_take, List.length_take]
    omega
  have hi2 : i < text.dropLast.length := by omega
  have := h.2 (text.dropLast[i]) (List.getElem_mem hi2)
  rwa [List.getElem_dropLast] at this

theorem okt_sentinel_iff {text : List Char} (h : OkText text) {q : Nat} (hq : q < text.length) :
    text[q] = '$' ↔ q = text.length - 1 := by
  constructor
  · intro hc
    by_contra hne
    have hq' : q < text.length - 1 := by omega
    exact alpha_ne_sentinel (okt_alpha h hq') hc
  · intro hc
    subst hc
    exact okt_last h (by omega)

theorem code_length (text : List Char) (sa : List Nat) :
    (get_bwt text sa).length = sa.length := by
  simp [get_bwt]

theorem code_getElem (text : List Char) (sa : List Nat) {r : Nat} (hr : r < sa.length)
    (hrc : r < (get_bwt text sa).length) :
    (get_bwt text sa)[r] =
      if sa[r] = 0 then '$' else text.getD (sa[r] - 1) ' ' := by
  simp [get_bwt]

theorem code_getElem_of_pos {text : List Char} {sa : List Nat} (hs : SortedSA text sa)
    {r : Nat} (hr : r < sa.length) (hpos : sa[r] ≠ 0)
    (hrc : r < (get_bwt text sa).length) (hts : sa[r] - 1 < text.length) :
    (get_bwt text sa)[r] = text[sa[r] - 1] := by
  rw [code_getElem text sa hr hrc, if_neg hpos]
  exact List.getD_eq_getElem text ' ' hts

theorem code_sentinel_iff {text : List Char} {sa : List Nat} (h : OkText text)
    (hs : SortedSA text sa) {r : Nat} (hr : r < sa.length)
    (hrc : r < (get_bwt text sa).length) :
    (get_bwt text sa)[r] = '$' ↔ sa[r] = 0 := by
  constructor
  · intro hc
    by_contra hpos
    have helt := ssa_elem_lt hs hr
    rw [code_getElem_of_pos hs hr hpos hrc (by omega)] at hc
    have hlt : sa[r] - 1 < text.length - 1 := by omega
    exact alpha_ne_sentinel (okt_alpha h hlt) hc
  · intro hc
    rw [code_getElem text sa hr hrc, if_pos hc]

theorem ssa_first {text : List Char} {sa : List Nat} (h : OkText text) (hs : SortedSA text sa)
    (hsa0 : 0 < sa.length) :
    sa[0] = text.length - 1 := by
  have hm := okt_length_pos h
  have hlast : text.length - 1 < text.length := by omega
  have hpos := posIn_lt hs hlast
  have h0 := ssa_row_countP hs hpos
  rw [getElem_posIn hs hlast hpos] at h0
  have hz : sa.countP (fun q => listLexLt (text.drop q) (text.drop (text.length - 1))) = 0 := by
    rw [List.countP_eq_zero]
    intro q hq
    have hqlt : q < text.length := (ssa_mem hs).mp hq
    have hdropq : text.drop q = text[q] :: text.drop (q + 1) := List.drop_eq_getElem_cons hqlt
    have hdroplast : text.drop (text.length - 1) = ['$'] := by
      have h1 : text.drop (text.length - 1) =
          text[text.length - 1] :: text.drop (text.length - 1 + 1) :=
        List.drop_eq_getElem_cons hlast
      rw [okt_last h hm] at h1
      have h2 : text.length - 1 + 1 = text.length := by omega
      rw [h2, List.drop_length] at h1
      exact h1
    intro hcon
    rw [hdropq, hdroplast] at hcon
    rcases lex_cons_iff.mp hcon with hlt | ⟨heq, hrest⟩
    · by_cases hql : q = text.length - 1
      · rw [(okt_sentinel_iff h hqlt).mpr hql] at hlt
        exact lt_irrefl _ hlt
      · have := alpha_gt_sentinel (okt_alpha h (show q < text.length - 1 by omega))
        exact lt_irrefl _ (lt_trans hlt this)
    · by_cases hql : q = text.length - 1
      · subst hql
        have h2 : text.length - 1 + 1 = text.length := by omega
        rw [h2, List.drop_length] at hrest
        simp [listLexLt] at hrest
      · exact alpha_ne_sentinel (okt_alpha h (show q < text.length - 1 by omega)) heq
  rw [hz] at h0
  have h1 : posIn sa (text.length - 1) = 0 := h0.symm
  have h2 := getElem_posIn hs hlast hpos
  simp only [h1] at h2
  exact h2

end Humdum

/-! ### The cumulative frequency table -/

namespace Humdum

theorem mem_alpha6 {ch : Char} (h : ch ∈ '$' :: alphaChars) :
    ch = '$' ∨ ch = 'A' ∨ ch = 'C' ∨ ch = 'G' ∨ ch = 'N' ∨ ch = 'T' := by
  simpa [alphaChars] using h

theorem countP_lt_step (text : List Char) (hall : ∀ ch ∈ text, ch ∈ '$' :: alphaChars)
    (c d : Char)
    (hstep : ∀ ch ∈ '$' :: alphaChars,
      (decide (ch < d)) = (decide (ch < c) || decide (ch = c))) :
    text.countP (fun ch => decide (ch < d)) =
      text.countP (fun ch => decide (ch < c)) + text.count c := by
  have h1 : text.countP (fun ch => decide (ch < d)) =
      text.countP (fun ch => decide (ch < c) || decide (ch = c)) := by
    apply List.countP_congr
    intro a ha
    rw [hstep a (hall a ha)]
  have h2 : text.countP (fun ch => decide (ch < c) || decide (ch = c)) =
      text.countP (fun ch => decide (ch < c)) + text.countP (fun ch => decide (ch = c)) := by
    apply countP_orB
    intro a _ hand
    have hlt : a < c := of_decide_eq_true hand.1
    have heq : a = c := of_decide_eq_true hand.2
    exact lt_irrefl c (heq ▸ hlt)
  rw [h1, h2, ← count_eq_countP_eq]

theorem shifts_f_eq (text : List Char) (hall : ∀ ch ∈ text, ch ∈ '$' :: alphaChars)
    (c : Char) (hc : c ∈ '$' :: alphaChars) :
    shifts_f text c = text.countP (fun ch => decide (ch < c)) := by
  have base : text.countP (fun ch => decide (ch < '$')) = 0 := by
    rw [List.countP_eq_zero]
    intro a ha
    rcases mem_alpha6 (hall a ha) with rfl | rfl | rfl | rfl | rfl | rfl <;> decide
  have sA := countP_lt_step text hall '$' 'A'
    (fun ch hch => by
      rcases mem_alpha6 hch with rfl | rfl | rfl | rfl | rfl | rfl <;> decide)
  have sC := countP_lt_step text hall 'A' 'C'
    (fun ch hch => by
      rcases mem_alpha6 hch with rfl | rfl | rfl | rfl | rfl | rfl <;> decide)
  have sG := countP_lt_step text hall 'C' 'G'
    (fun ch hch => by
      rcases mem_alpha6 hch with rfl | rfl | rfl | rfl | rfl | rfl <;> decide)
  have sN := countP_lt_step text hall 'G' 'N'
    (fun ch hch => by
      rcases mem_alpha6 hch with rfl | rfl | rfl | rfl | rfl | rfl <;> decide)
  have sT := countP_lt_step text hall 'N' 'T'
    (fun ch hch => by
      rcases mem_alpha6 hch with rfl | rfl | rfl | rfl | rfl | rfl <;> decide)
  rcases mem_alpha6 hc with rfl | rfl | rfl | rfl | rfl | rfl
  · rw [base]; rfl
  · rw [sA, base]; simp [shifts_f]
  · rw [sC, sA, base]; simp [shifts_f]
  · rw [sG, sC, sA, base]; simp [shifts_f]
  · rw [sN, sG, sC, sA, base]; simp [shifts_f]
  · rw [sT, sN, sG, sC, sA, base]; simp [shifts_f]

end Humdum

/-! ### The occurrence table -/

namespace Humdum

theorem tallyAux_cons (c : Char) (comp : Nat) (ch : Char) (rest : List Char)
    (cnt run : Nat) :
    tallyAux c comp (ch :: rest) cnt run =
      if cnt % comp = 0 then
        (run + if ch = c then 1 else 0) ::
          tallyAux c comp rest (cnt + 1) (run + if ch = c then 1 else 0)
      else tallyAux c comp rest (cnt + 1) (run + if ch = c then 1 else 0) := rfl

theorem tallyAux_eq (c : Char) (comp : Nat) :
    ∀ (rest : List Char) (cnt run : Nat),
      tallyAux c comp rest cnt run =
        ((List.range' cnt rest.length).filter (fun i => decide (i % comp = 0))).map
          (fun i => run + (rest.take (i - cnt + 1)).count c) := by
  intro rest
  induction rest with
  | nil => intro cnt run; simp [tallyAux]
  | cons ch rest ih =>
    intro cnt run
    have hmaps :
        (List.filter (fun i => decide (i % comp = 0)) (List.range' (cnt + 1) rest.length)).map
          (fun i => (run + if ch = c then 1 else 0) + (rest.take (i - (cnt + 1) + 1)).count c) =
        (List.filter (fun i => decide (i % comp = 0)) (List.range' (cnt + 1) rest.length)).map
          (fun i => run + ((ch :: rest).take (i - cnt + 1)).count c) := by
      apply List.map_congr_left
      intro i hi
      have hmem : i ∈ List.range' (cnt + 1) rest.length := List.mem_of_mem_filter hi
      rcases List.mem_range'.mp hmem with ⟨k, hk, rfl⟩
      have h1 : cnt + 1 + 1 * k - cnt + 1 = (cnt + 1 + 1 * k - (cnt + 1) + 1) + 1 := by omega
      rw [h1, List.take_succ_cons, List.count_cons]
      have h2 : (if (ch == c) = true then 1 else 0) = (if ch = c then 1 else 0) := by
        by_cases hcc : ch = c <;> simp [hcc]
      omega
    rw [tallyAux_cons, List.length_cons, List.range'_succ]
    by_cases hc : cnt % comp = 0
    · rw [if_pos hc, List.filter_cons_of_pos (by simpa using hc), List.map_cons]
      congr 1
      · have h3 : cnt - cnt + 1 = 1 := by omega
        rw [h3]
        have h4 : (ch :: rest).take 1 = [ch] := rfl
        rw [h4]
        have h5 : List.count c [ch] = if ch = c then 1 else 0 := by
          by_cases hcc : ch = c <;> simp [List.count_cons, hcc]
        omega
      · exact (ih (cnt + 1) _).trans hmaps
    · rw [if_neg hc, List.filter_cons_of_neg (by simpa using hc)]
      exact (ih (cnt + 1) _).trans hmaps

theorem filter_mod_range' (comp : Nat) (hcomp : 1 ≤ comp) :
    ∀ len, (List.range' 1 len).filter (fun i => decide (i % comp = 0)) =
      (List.range' 1 (len / comp)).map (fun j => j * comp) := by
  intro len
  induction len with
  | zero => simp [Nat.zero_div]
  | succ len ih =>
    rw [List.range'_concat, List.filter_append, ih]
    have he : 1 + 1 * len = len + 1 := by omega
    by_cases hd : (len + 1) % comp = 0
    · have hdvd : comp ∣ len + 1 := Nat.dvd_of_mod_eq_zero hd
      have hdiv : (len + 1) / comp = len / comp + 1 := by
        rw [Nat.succ_div, if_pos hdvd]
      have hval : (1 + 1 * (len / comp)) * comp = len + 1 := by
        have h2 : (len + 1) / comp * comp = len + 1 := Nat.div_mul_cancel hdvd
        rw [hdiv] at h2
        calc (1 + 1 * (len / comp)) * comp = (len / comp + 1) * comp := by ring_nf
        _ = len + 1 := h2
      rw [hdiv, List.range'_concat, List.map_append]
      congr 1
      rw [he]
      simp only [List.filter_cons, List.filter_nil, List.map_cons, List.map_nil]
      rw [if_pos (by simpa using hd), hval]
    · have hdiv : (len + 1) / comp = len / comp := by
        have hndvd : ¬ comp ∣ len + 1 := fun hdvd => hd (Nat.mod_eq_zero_of_dvd hdvd)
        rw [Nat.succ_div, if_neg hndvd]
        omega
      rw [hdiv, he]
      simp only [List.filter_cons, List.filter_nil]
      rw [if_neg (by simpa using hd)]
      simp

theorem tallyC_eq (code : List Char) (comp : Nat) (hcomp : 1 ≤ comp) (hne : code ≠ [])
    (c : Char) :
    tallyC code comp c =
      (List.range ((code.length - 1) / comp + 1)).map
        (fun k => (code.take (k * comp + 1)).count c) := by
  match code, hne with
  | ch0 :: rest, _ =>
    simp only [tallyC]
    rw [tallyAux_eq, filter_mod_range' comp hcomp]
    have hlen : (ch0 :: rest).length - 1 = rest.length := by simp
    rw [hlen, List.range_succ_eq_map, List.map_cons, List.map_map, List.range'_eq_map_range,
      List.map_map, List.map_map]
    congr 1
    · have h4 : (ch0 :: rest).take (0 * comp + 1) = [ch0] := by
        rw [Nat.zero_mul]
        rfl
      rw [h4]
      have h5 : List.count c [ch0] = if ch0 = c then 1 else 0 := by
        by_cases hcc : ch0 = c <;> simp [List.count_cons, hcc]
      omega
    · apply List.map_congr_left
      intro k hk
      simp only [Function.comp_apply]
      have hpos1 : 0 < (1 + k) * comp := Nat.mul_pos (by omega) (by omega)
      have h1 : (1 + k) * comp - 1 + 1 = (1 + k) * comp := by omega
      rw [h1]
      have h2 : Nat.succ k * comp + 1 = (1 + k) * comp + 1 := by
        rw [Nat.succ_mul]
        ring
      rw [h2, List.take_succ_cons, List.count_cons]
      have h3 : (if (ch0 == c) = true then 1 else 0) = (if ch0 = c then 1 else 0) := by
        by_cases hcc : ch0 = c <;> simp [hcc]
      omega

theorem tallyC_length (code : List Char) (comp : Nat) (hcomp : 1 ≤ comp) (hne : code ≠ [])
    (c : Char) : (tallyC code comp c).length = (code.length - 1) / comp + 1 := by
  rw [tallyC_eq code comp hcomp hne c]
  simp

theorem tallyC_getD (code : List Char) (comp : Nat) (hcomp : 1 ≤ comp) (hne : code ≠ [])
    (c : Char) (k : Nat) (hk : k ≤ (code.length - 1) / comp) :
    (tallyC code comp c).getD k 0 = (code.take (k * comp + 1)).count c := by
  rw [tallyC_eq code comp hcomp hne c]
  have hk2 : k < ((List.range ((code.length - 1) / comp + 1)).map
      (fun k => (code.take (k * comp + 1)).count c)).length := by
    simp
    omega
  rw [List.getD_eq_getElem _ _ hk2, List.getElem_map, List.getElem_range]

end Humdum

/-! ### The sentinel index -/

namespace Humdum

theorem indexSAux_zero : ∀ (rest : List Char) (cnt : Nat), '$' ∉ rest →
    indexSAux rest cnt = 0 := by
  intro rest
  induction rest with
  | nil => intro cnt _; rfl
  | cons ch rest ih =>
    intro cnt hmem
    have h1 : ch ≠ '$' := fun h => hmem (h ▸ List.mem_cons_self _ _)
    have h2 : '$' ∉ rest := fun h => hmem (List.mem_cons_of_mem _ h)
    simp only [indexSAux]
    rw [if_neg h1, ih (cnt + 1) h2]

theorem indexSAux_split : ∀ (l1 : List Char) (l2 : List Char) (cnt : Nat),
    '$' ∉ l1 → '$' ∉ l2 → indexSAux (l1 ++ '$' :: l2) cnt = cnt + l1.length := by
  intro l1
  induction l1 with
  | nil =>
    intro l2 cnt _ h2
    simp only [List.nil_append, indexSAux]
    simp [indexSAux_zero l2 (cnt + 1) h2]
  | cons ch l1 ih =>
    intro l2 cnt hmem h2
    have hch : ch ≠ '$' := fun h => hmem (h ▸ List.mem_cons_self _ _)
    have h1 : '$' ∉ l1 := fun h => hmem (List.mem_cons_of_mem _ h)
    have hstep : (ch :: l1) ++ '$' :: l2 = ch :: (l1 ++ '$' :: l2) := rfl
    rw [hstep]
    simp only [indexSAux]
    rw [if_neg hch, ih l2 (cnt + 1) h1 h2]
    simp
    omega

theorem index_s_eq (code : List Char) (p : Nat) (hp : p < code.length) (hp1 : 1 ≤ p)
    (hcp : code[p] = '$')
    (huniq : ∀ q (hq : q < code.length), code[q] = '$' → q = p) :
    Humdum.index_s code = p := by
  match code, hp with
  | ch0 :: rest, hp =>
    have hch0 : ch0 ≠ '$' := by
      intro h
      have h0 : (0 : Nat) < (ch0 :: rest).length := by simp
      have := huniq 0 h0 (by simpa using h)
      omega
    have hrest : p - 1 < rest.length := by
      have : p < (ch0 :: rest).length := hp
      simp at this
      omega
    have hrp : rest[p - 1] = '$' := by
      have h1 : (ch0 :: rest)[p] = rest[p - 1] := by
        have hps : p = (p - 1) + 1 := by omega
        rw [List.getElem_cons]
        rw [dif_neg (by omega)]
      rw [← h1, hcp]
    have hsplit : rest.take (p - 1) ++ '$' :: rest.drop p = rest := by
      have h1 : rest.drop (p - 1) = rest[p - 1] :: rest.drop (p - 1 + 1) :=
        List.drop_eq_getElem_cons hrest
      rw [hrp] at h1
      have h2 : p - 1 + 1 = p := by omega
      rw [h2] at h1
      rw [← h1]
      exact List.take_append_drop (p - 1) rest
    have hnotake : '$' ∉ rest.take (p - 1) := by
      intro hmem
      rcases List.mem_iff_getElem.mp hmem with ⟨i, hi, hgi⟩
      have hilen : i < p - 1 := by
        have := hi
        rw [List.length_take] at this
        omega
      have hile : i < rest.length := by omega
      have hgi2 : rest[i] = '$' := by
        rw [← hgi]
        exact (List.getElem_take _).symm
      have hlc1 : i + 1 < (ch0 :: rest).length := by simp; omega
      have hq : (ch0 :: rest)[i + 1] = '$' := by
        simpa using hgi2
      have := huniq (i + 1) (by simp; omega) hq
      omega
    have hnodrop : '$' ∉ rest.drop p := by
      intro hmem
      rcases List.mem_iff_getElem.mp hmem with ⟨j, hj, hgj⟩
      have hjlen : p + j < rest.length := by
        rw [List.length_drop] at hj
        omega
      have hgj2 : rest[p + j] = '$' := by
        rw [← hgj]
        exact (List.getElem_drop _).symm
      have hlc2 : p + j + 1 < (ch0 :: rest).length := by simp; omega
      have hq : (ch0 :: rest)[p + j + 1] = '$' := by
        simpa using hgj2
      have := huniq (p + j + 1) (by simp; omega) hq
      omega
    simp only [Humdum.index_s]
    rw [if_neg hch0]
    conv_lhs => rw [← hsplit]
    rw [indexSAux_split (rest.take (p - 1)) (rest.drop p) 1 hnotake hnodrop]
    rw [List.length_take]
    simp
    omega

end Humdum

/-! ### The first checkpoint scans and the built object's fields -/

namespace Humdum

theorem countDown_eq (code : List Char) (c : Char) :
    ∀ (s start : Nat), s ≤ start + 1 → start < code.length →
      countDown code c start s = ((code.drop (start + 1 - s)).take s).count c := by
  intro s
  induction s with
  | zero => intro start _ _; simp [countDown]
  | succ s ih =>
    intro start hs hstart
    cases start with
    | zero =>
      have hs0 : s = 0 := by omega
      subst hs0
      simp only [countDown]
      have h1 : (0 : Nat) + 1 - 1 = 0 := by omega
      rw [h1]
      have h2 : (code.drop 0).take 1 = code.take 1 := by rw [List.drop_zero]
      rw [h2, List.take_succ, List.take_zero, List.getElem?_eq_getElem hstart]
      simp only [List.nil_append, Option.toList_some]
      rw [List.getD_eq_getElem code ' ' hstart]
      by_cases hcc : code[0] = c <;> simp [List.count_cons, hcc]
    | succ st =>
      simp only [countDown]
      have hst : st < code.length := by omega
      have harith : st + 1 + 1 - (s + 1) = st + 1 - s := by omega
      rw [harith]
      have hs' : s ≤ st + 1 := by omega
      have hih := ih st hs' hst
      have hsub : st + 1 - 1 = st := by omega
      rw [hsub, hih]
      have htk : (code.drop (st + 1 - s)).take (s + 1) =
          (code.drop (st + 1 - s)).take s ++ (code.drop (st + 1 - s))[s]?.toList :=
        List.take_succ
      rw [htk, List.count_append]
      have hidx : (code.drop (st + 1 - s))[s]? = some code[st + 1] := by
        rw [List.getElem?_drop]
        have : st + 1 - s + s = st + 1 := by omega
        rw [this]
        exact List.getElem?_eq_getElem hstart
      rw [hidx]
      rw [List.getD_eq_getElem code ' ' hstart]
      by_cases hcc : code[st + 1] = c <;> simp [List.count_cons, hcc] <;> omega

theorem countUp_eq (code : List Char) (c : Char) :
    ∀ (steps start : Nat), start + steps ≤ code.length →
      countUp code c start steps = ((code.drop start).take steps).count c := by
  intro steps
  induction steps with
  | zero => intro start _; simp [countUp]
  | succ steps ih =>
    intro start hb
    have hstart : start < code.length := by omega
    simp only [countUp]
    have hdrop : code.drop start = code[start] :: code.drop (start + 1) :=
      List.drop_eq_getElem_cons hstart
    rw [hdrop, List.take_succ_cons, List.count_cons, ih (start + 1) (by omega)]
    rw [List.getD_eq_getElem code ' ' hstart]
    by_cases hcc : code[start] = c <;> simp [hcc] <;> omega

theorem buildWith_code (text : List Char) (sa : List Nat) (occ csa : Nat) :
    (buildWith text sa occ csa).code = get_bwt text sa := by
  unfold buildWith
  rw [log2C_eq]
  by_cases h : csa = 1
  · simp [h]
  · rcases hcl : compressLoop csa (Nat.log2 text.length) sa 0 0 with ⟨sc, bits, buck⟩
    simp [h, hcl]

theorem buildWith_occ (text : List Char) (sa : List Nat) (occ csa : Nat) :
    (buildWith text sa occ csa).compression_occ = occ := by
  unfold buildWith
  rw [log2C_eq]
  by_cases h : csa = 1
  · simp [h]
  · rcases hcl : compressLoop csa (Nat.log2 text.length) sa 0 0 with ⟨sc, bits, buck⟩
    simp [h, hcl]

theorem buildWith_csa (text : List Char) (sa : List Nat) (occ csa : Nat) :
    (buildWith text sa occ csa).compression_sa = csa := by
  unfold buildWith
  rw [log2C_eq]
  by_cases h : csa = 1
  · simp [h]
  · rcases hcl : compressLoop csa (Nat.log2 text.length) sa 0 0 with ⟨sc, bits, buck⟩
    simp [h, hcl]

theorem buildWith_step (text : List Char) (sa : List Nat) (occ csa : Nat) :
    (buildWith text sa occ csa).bucket_step = Nat.log2 text.length := by
  unfold buildWith
  rw [log2C_eq]
  by_cases h : csa = 1
  · simp [h]
  · rcases hcl : compressLoop csa (Nat.log2 text.length) sa 0 0 with ⟨sc, bits, buck⟩
    simp [h, hcl]

theorem buildWith_f (text : List Char) (sa : List Nat) (occ csa : Nat) :
    (buildWith text sa occ csa).f = shifts_f text := by
  unfold buildWith
  rw [log2C_eq]
  by_cases h : csa = 1
  · simp [h]
  · rcases hcl : compressLoop csa (Nat.log2 text.length) sa 0 0 with ⟨sc, bits, buck⟩
    simp [h, hcl]

theorem buildWith_tallyT (text : List Char) (sa : List Nat) (occ csa : Nat) :
    (buildWith text sa occ csa).tallyT = fun c => tallyC (get_bwt text sa) occ c := by
  unfold buildWith
  rw [log2C_eq]
  by_cases h : csa = 1
  · simp [h]
  · rcases hcl : compressLoop csa (Nat.log2 text.length) sa 0 0 with ⟨sc, bits, buck⟩
    simp [h, hcl]

theorem buildWith_index_s (text : List Char) (sa : List Nat) (occ csa : Nat) :
    (buildWith text sa occ csa).index_s = Humdum.index_s (get_bwt text sa) := by
  unfold buildWith
  rw [log2C_eq]
  by_cases h : csa = 1
  · simp [h]
  · rcases hcl : compressLoop csa (Nat.log2 text.length) sa 0 0 with ⟨sc, bits, buck⟩
    simp [h, hcl]

theorem buildWith_sa_one (text : List Char) (sa : List Nat) (occ : Nat) :
    (buildWith text sa occ 1).sa = sa := by
  unfold buildWith
  rw [log2C_eq]
  simp

theorem buildWith_sa_of_ne (text : List Char) (sa : List Nat) (occ csa : Nat) (h : csa ≠ 1) :
    (buildWith text sa occ csa).sa = (compressLoop csa (Nat.log2 text.length) sa 0 0).1 := by
  unfold buildWith
  rw [log2C_eq]
  rcases hcl : compressLoop csa (Nat.log2 text.length) sa 0 0 with ⟨sc, bits, buck⟩
  simp [h, hcl]

theorem buildWith_bits_of_ne (text : List Char) (sa : List Nat) (occ csa : Nat) (h : csa ≠ 1) :
    (buildWith text sa occ csa).bitvector =
      (compressLoop csa (Nat.log2 text.length) sa 0 0).2.1 := by
  unfold buildWith
  rw [log2C_eq]
  rcases hcl : compressLoop csa (Nat.log2 text.length) sa 0 0 with ⟨sc, bits, buck⟩
  simp [h, hcl]

theorem buildWith_bucket_of_ne (text : List Char) (sa : List Nat) (occ csa : Nat)
    (h : csa ≠ 1) :
    (buildWith text sa occ csa).bucket =
      (if sa.getD 0 0 % csa = 0 then 1 else 0) ::
        (compressLoop csa (Nat.log2 text.length) sa 0 0).2.2 := by
  unfold buildWith
  rw [log2C_eq]
  rcases hcl : compressLoop csa (Nat.log2 text.length) sa 0 0 with ⟨sc, bits, buck⟩
  simp [h, hcl]

end Humdum

/-! ### Rank computes exact prefix occurrence counts -/

namespace Humdum

theorem posIn_zero_lt {text : List Char} {sa : List Nat} (hok : OkText text)
    (hs : SortedSA text sa) : posIn sa 0 < sa.length :=
  posIn_lt hs (okt_length_pos hok)

theorem sa_posIn_zero {text : List Char} {sa : List Nat} (hok : OkText text)
    (hs : SortedSA text sa) (hq : posIn sa 0 < sa.length) : sa[posIn sa 0] = 0 :=
  getElem_posIn hs (okt_length_pos hok) hq

theorem code_posIn_zero {text : List Char} {sa : List Nat} (hok : OkText text)
    (hs : SortedSA text sa) (hqc : posIn sa 0 < (get_bwt text sa).length) :
    (get_bwt text sa)[posIn sa 0] = '$' :=
  (code_sentinel_iff hok hs (posIn_zero_lt hok hs) hqc).mpr
    (sa_posIn_zero hok hs (posIn_zero_lt hok hs))

theorem posIn_zero_pos {text : List Char} {sa : List Nat} (hok : OkText text)
    (hs : SortedSA text sa) (hm : 2 ≤ text.length) : 1 ≤ posIn sa 0 := by
  by_contra hc
  have h0 : posIn sa 0 = 0 := by omega
  have h1 := sa_posIn_zero hok hs (posIn_zero_lt hok hs)
  simp only [h0] at h1
  have h2 := ssa_first hok hs (by rw [ssa_length hs]; exact okt_length_pos hok)
  rw [h1] at h2
  omega

theorem code_sentinel_unique {text : List Char} {sa : List Nat} (hok : OkText text)
    (hs : SortedSA text sa) :
    ∀ q (hq : q < (get_bwt text sa).length), (get_bwt text sa)[q] = '$' → q = posIn sa 0 := by
  intro q hq hcq
  have hq2 : q < sa.length := by rwa [code_length] at hq
  have h1 : sa[q] = 0 := (code_sentinel_iff hok hs hq2 hq).mp hcq
  exact (posIn_eq_of_getElem hs hq2 h1).symm

theorem index_s_val {text : List Char} {sa : List Nat} (hok : OkText text)
    (hs : SortedSA text sa) (hm : 2 ≤ text.length) :
    Humdum.index_s (get_bwt text sa) = posIn sa 0 := by
  apply index_s_eq (get_bwt text sa) (posIn sa 0)
    (by rw [code_length]; exact posIn_zero_lt hok hs)
    (posIn_zero_pos hok hs hm)
    (code_posIn_zero hok hs (by rw [code_length]; exact posIn_zero_lt hok hs))
    (code_sentinel_unique hok hs)

theorem count_sentinel_take {text : List Char} {sa : List Nat} (hok : OkText text)
    (hs : SortedSA text sa) (i : Nat) :
    ((get_bwt text sa).take (i + 1)).count '$' = if posIn sa 0 ≤ i then 1 else 0 := by
  have h := count_take_unique (get_bwt text sa) '$' (posIn sa 0)
    (by rw [code_length]; exact posIn_zero_lt hok hs)
    (code_posIn_zero hok hs (by rw [code_length]; exact posIn_zero_lt hok hs))
    (code_sentinel_unique hok hs) (i + 1)
  rw [h]
  have hiff : (posIn sa 0 < i + 1) ↔ (posIn sa 0 ≤ i) := by omega
  exact if_congr hiff rfl rfl

theorem rank_eq_count (text : List Char) (sa : List Nat) (occ csa : Nat) (hok : OkText text)
    (hm : 2 ≤ text.length) (hs : SortedSA text sa) (hocc : 1 ≤ occ) (c : Char)
    (hc : c ∈ '$' :: alphaChars) (i : Nat) (hi : i < text.length) :
    rank (buildWith text sa occ csa) c i = ((get_bwt text sa).take (i + 1)).count c := by
  have hcodelen : (get_bwt text sa).length = text.length := by
    rw [code_length, ssa_length hs]
  have hcodene : get_bwt text sa ≠ [] := by
    intro h
    rw [h] at hcodelen
    simp at hcodelen
    omega
  simp only [rank, buildWith_code, buildWith_occ, buildWith_tallyT, buildWith_index_s]
  by_cases hcs : c = '$'
  · subst hcs
    rw [if_pos rfl, index_s_val hok hs hm, count_sentinel_take hok hs i]
  · rw [if_neg hcs]
    have hin : i ≤ (get_bwt text sa).length - 1 := by omega
    by_cases hb1 : i % occ = 0
    · rw [if_pos hb1]
      have hk : i / occ ≤ ((get_bwt text sa).length - 1) / occ := Nat.div_le_div_right hin
      rw [tallyC_getD (get_bwt text sa) occ hocc hcodene c (i / occ) hk]
      have hmul : i / occ * occ + 1 = i + 1 := by
        rw [Nat.div_mul_cancel (Nat.dvd_of_mod_eq_zero hb1)]
      rw [hmul]
    · rw [if_neg hb1]
      have hdm := Nat.div_add_mod i occ
      have hmlt : i % occ < occ := Nat.mod_lt i (by omega)
      by_cases hb2 : 2 * (i % occ) < occ ∨
          ((get_bwt text sa).length - 1) / occ * occ < i
      · rw [if_pos (by
          rcases hb2 with h | h
          · simp [h]
          · simp [h])]
        have hk : i / occ ≤ ((get_bwt text sa).length - 1) / occ := Nat.div_le_div_right hin
        rw [tallyC_getD (get_bwt text sa) occ hocc hcodene c (i / occ) hk]
        have hsle : i % occ ≤ i + 1 := by omega
        rw [countDown_eq (get_bwt text sa) c (i % occ) i hsle (by omega)]
        have hstart : i + 1 - i % occ = i / occ * occ + 1 := by
          have hcomm : i / occ * occ = occ * (i / occ) := Nat.mul_comm _ _
          omega
        rw [hstart]
        have hsplit : (get_bwt text sa).take (i + 1) =
            (get_bwt text sa).take (i / occ * occ + 1) ++
              ((get_bwt text sa).drop (i / occ * occ + 1)).take (i % occ) := by
          have h1 : i + 1 = (i / occ * occ + 1) + i % occ := by
            have hcomm : i / occ * occ = occ * (i / occ) := Nat.mul_comm _ _
            omega
          rw [h1]
          exact List.take_add _ _ _
        rw [hsplit, List.count_append]
      · rw [if_neg (by
          intro hcon
          rcases (Bool.or_eq_true _ _).mp hcon with h | h
          · exact hb2 (Or.inl (of_decide_eq_true h))
          · exact hb2 (Or.inr (of_decide_eq_true h)))]
        push_neg at hb2
        rcases hb2 with ⟨hge, hle⟩
        set n := (get_bwt text sa).length - 1 with hn
        have hklt : i / occ < n / occ := by
          have h1 : i / occ ≤ n / occ := Nat.div_le_div_right hin
          rcases Nat.lt_or_ge (i / occ) (n / occ) with h | h
          · exact h
          · exfalso
            have heq : i / occ = n / occ := by omega
            have h2 : i / occ * occ ≤ i := Nat.div_mul_le_self i occ
            have h3 : i ≤ n / occ * occ := hle
            rw [← heq] at h3
            have h4 : i = i / occ * occ := by omega
            have h5 : i % occ = 0 := by
              rw [h4]
              exact Nat.mul_mod_left _ _
            exact hb1 h5
        have hk2 : i / occ + 1 ≤ n / occ := hklt
        rw [tallyC_getD (get_bwt text sa) occ hocc hcodene c (i / occ + 1) hk2]
        have hi1 : (i / occ + 1) * occ ≤ n := by
          calc (i / occ + 1) * occ ≤ n / occ * occ := Nat.mul_le_mul_right occ hk2
          _ ≤ n := Nat.div_mul_le_self n occ
        have hbound : (i + 1) + (occ - i % occ) ≤ (get_bwt text sa).length := by
          have hcomm : i / occ * occ = occ * (i / occ) := Nat.mul_comm _ _
          have hsm : (i / occ + 1) * occ = i / occ * occ + occ := Nat.succ_mul _ _
          omega
        rw [countUp_eq (get_bwt text sa) c (occ - i % occ) (i + 1) hbound]
        have hsplit : (get_bwt text sa).take ((i / occ + 1) * occ + 1) =
            (get_bwt text sa).take (i + 1) ++
              ((get_bwt text sa).drop (i + 1)).take (occ - i % occ) := by
          have hcomm : i / occ * occ = occ * (i / occ) := Nat.mul_comm _ _
          have hsm : (i / occ + 1) * occ = i / occ * occ + occ := Nat.succ_mul _ _
          have h1 : (i / occ + 1) * occ + 1 = (i + 1) + (occ - i % occ) := by omega
          rw [h1]
          exact List.take_add _ _ _
        rw [hsplit, List.count_append]
        omega

end Humdum

/-! ### Correctness of the LF-mapping -/

namespace Humdum

theorem bool_eq_of_iff {a b : Bool} (h : a = true ↔ b = true) : a = b := by
  cases a <;> cases b <;> simp_all

theorem okt_all {text : List Char} (hok : OkText text) :
    ∀ ch ∈ text, ch ∈ '$' :: alphaChars := by
  intro ch hch
  rcases List.mem_iff_getElem.mp hch with ⟨q, hq, rfl⟩
  by_cases hql : q = text.length - 1
  · subst hql
    rw [okt_last hok (by omega)]
    exact List.mem_cons_self _ _
  · exact List.mem_cons_of_mem _ (okt_alpha hok (by omega))

theorem lf_correct (text : List Char) (sa : List Nat) (hok : OkText text)
    (hm : 2 ≤ text.length) (hs : SortedSA text sa) (row : Nat) (hrow : row < sa.length)
    (hrowc : row < (get_bwt text sa).length)
    (hns : (get_bwt text sa)[row] ≠ '$') :
    1 ≤ sa[row] ∧
    shifts_f text ((get_bwt text sa)[row]) +
        ((get_bwt text sa).take (row + 1)).count ((get_bwt text sa)[row]) - 1 =
      posIn sa (sa[row] - 1) := by
  have hcodelen : (get_bwt text sa).length = sa.length := code_length text sa
  have hsalen : sa.length = text.length := ssa_length hs
  have hpos : sa[row] ≠ 0 := fun h => hns ((code_sentinel_iff hok hs hrow hrowc).mpr h)
  have hp0lt : sa[row] < text.length := ssa_elem_lt hs hrow
  have hcval : (get_bwt text sa)[row] = text[sa[row] - 1] :=
    code_getElem_of_pos hs hrow hpos hrowc (by omega)
  set c := (get_bwt text sa)[row] with hcdef
  set p0 := sa[row] with hp0def
  have hcalpha : c ∈ alphaChars := by
    rw [hcval]
    exact okt_alpha hok (by omega)
  have hcne : c ≠ '$' := alpha_ne_sentinel hcalpha
  refine ⟨by omega, ?_⟩
  have hposIn := posIn_countP_range hs (show p0 - 1 < text.length by omega)
  have hdropt : text.drop (p0 - 1) = c :: text.drop p0 := by
    have h1 : text.drop (p0 - 1) = text[p0 - 1] :: text.drop (p0 - 1 + 1) :=
      List.drop_eq_getElem_cons (by omega)
    rw [← hcval] at h1
    have h2 : p0 - 1 + 1 = p0 := by omega
    rw [h2] at h1
    exact h1
  have hstepA : (List.range text.length).countP
        (fun q => listLexLt (text.drop q) (text.drop (p0 - 1))) =
      (List.range text.length).countP
        (fun q => decide (text.getD q ' ' < c) ||
          (decide (text.getD q ' ' = c) && listLexLt (text.drop (q + 1)) (text.drop p0))) := by
    apply List.countP_congr
    intro q hq
    have hqlt : q < text.length := List.mem_range.mp hq
    have hdropq : text.drop q = text[q] :: text.drop (q + 1) := List.drop_eq_getElem_cons hqlt
    have hgd : text.getD q ' ' = text[q] := List.getD_eq_getElem text ' ' hqlt
    rw [hdropq, hdropt, hgd]
    constructor
    · intro h
      rcases lex_cons_iff.mp h with hlt | ⟨heq, hrest⟩
      · simp [hlt]
      · simp [heq, hrest]
    · intro h
      rcases (Bool.or_eq_true _ _).mp h with h1 | h1
      · exact lex_cons_iff.mpr (Or.inl (of_decide_eq_true h1))
      · rcases (Bool.and_eq_true _ _).mp h1 with ⟨h2, h3⟩
        exact lex_cons_iff.mpr (Or.inr ⟨of_decide_eq_true h2, h3⟩)
  have hstepB : (List.range text.length).countP
        (fun q => decide (text.getD q ' ' < c) ||
          (decide (text.getD q ' ' = c) && listLexLt (text.drop (q + 1)) (text.drop p0))) =
      (List.range text.length).countP (fun q => decide (text.getD q ' ' < c)) +
        (List.range text.length).countP
          (fun q => decide (text.getD q ' ' = c) &&
            listLexLt (text.drop (q + 1)) (text.drop p0)) := by
    apply countP_orB
    intro q _ hand
    have h1 : text.getD q ' ' < c := of_decide_eq_true hand.1
    have h2 : text.getD q ' ' = c := of_decide_eq_true ((Bool.and_eq_true _ _).mp hand.2).1
    rw [h2] at h1
    exact lt_irrefl _ h1
  have hstepC : (List.range text.length).countP (fun q => decide (text.getD q ' ' < c)) =
      shifts_f text c := by
    rw [← countP_eq_range text ' ' (fun ch => decide (ch < c))]
    exact (shifts_f_eq text (okt_all hok) c (List.mem_cons_of_mem _ hcalpha)).symm
  have hstepD : (List.range text.length).countP
        (fun q => decide (text.getD q ' ' = c) &&
          listLexLt (text.drop (q + 1)) (text.drop p0)) =
      ((get_bwt text sa).take row).count c := by
    have hlast : (decide (text.getD (text.length - 1) ' ' = c) &&
        listLexLt (text.drop (text.length - 1 + 1)) (text.drop p0)) = false := by
      have hgd : text.getD (text.length - 1) ' ' = '$' := by
        rw [List.getD_eq_getElem text ' ' (by omega)]
        have := okt_last hok (by omega)
        simpa using this
      rw [hgd]
      simp [Ne.symm hcne]
    have hleft : (List.range text.length).countP
          (fun q => decide (text.getD q ' ' = c) &&
            listLexLt (text.drop (q + 1)) (text.drop p0)) =
        (List.range (text.length - 1)).countP
          (fun q => decide (text.getD q ' ' = c) &&
            listLexLt (text.drop (q + 1)) (text.drop p0)) := by
      conv_lhs => rw [show text.length = Nat.succ (text.length - 1) from by omega]
      rw [List.range_succ, List.countP_append, List.countP_cons]
      rw [hlast]
      simp
    have hright : (List.range text.length).countP
          (fun x => decide (1 ≤ x) && decide (text.getD (x - 1) ' ' = c) &&
            listLexLt (text.drop x) (text.drop p0)) =
        (List.range (text.length - 1)).countP
          (fun q => decide (text.getD q ' ' = c) &&
            listLexLt (text.drop (q + 1)) (text.drop p0)) := by
      conv_lhs => rw [show text.length = (text.length - 1) + 1 from by omega]
      rw [List.range_succ_eq_map, List.countP_cons, List.countP_map]
      have hzero : (decide (1 ≤ (0 : Nat)) && decide (text.getD (0 - 1) ' ' = c) &&
          listLexLt (text.drop 0) (text.drop p0)) = false := by
        simp
      rw [hzero]
      have hcong : (List.range (text.length - 1)).countP
            ((fun x => decide (1 ≤ x) && decide (text.getD (x - 1) ' ' = c) &&
              listLexLt (text.drop x) (text.drop p0)) ∘ Nat.succ) =
          (List.range (text.length - 1)).countP
            (fun q => decide (text.getD q ' ' = c) &&
              listLexLt (text.drop (q + 1)) (text.drop p0)) := by
        apply List.countP_congr
        intro q _
        simp only [Function.comp_apply, Nat.succ_eq_add_one]
        have h1 : (1 : Nat) ≤ q + 1 := by omega
        have h2 : q + 1 - 1 = q := by omega
        simp [h1, h2]
      rw [hcong]
      simp
    have hd2 : (List.range text.length).countP
          (fun x => decide (1 ≤ x) && decide (text.getD (x - 1) ' ' = c) &&
            listLexLt (text.drop x) (text.drop p0)) =
        sa.countP
          (fun x => decide (1 ≤ x) && decide (text.getD (x - 1) ' ' = c) &&
            listLexLt (text.drop x) (text.drop p0)) :=
      (hs.1.countP_eq _).symm
    have hd3 : sa.countP
          (fun x => decide (1 ≤ x) && decide (text.getD (x - 1) ' ' = c) &&
            listLexLt (text.drop x) (text.drop p0)) =
        (List.range sa.length).countP
          (fun r => decide (1 ≤ sa.getD r 0) && decide (text.getD (sa.getD r 0 - 1) ' ' = c) &&
            listLexLt (text.drop (sa.getD r 0)) (text.drop p0)) :=
      countP_eq_range sa 0 _
    have hd4 : (List.range sa.length).countP
          (fun r => decide (1 ≤ sa.getD r 0) && decide (text.getD (sa.getD r 0 - 1) ' ' = c) &&
            listLexLt (text.drop (sa.getD r 0)) (text.drop p0)) =
        (List.range sa.length).countP
          (fun r => decide ((get_bwt text sa).getD r ' ' = c) && decide (r < row)) := by
      apply List.countP_congr
      intro r hr
      have hrlt : r < sa.length := List.mem_range.mp hr
      have hsagd : sa.getD r 0 = sa[r] := List.getD_eq_getElem sa 0 hrlt
      have hcgd : (get_bwt text sa).getD r ' ' = (get_bwt text sa)[r] :=
        List.getD_eq_getElem _ ' ' (by omega)
      rw [hsagd, hcgd]
      by_cases hz : sa[r] = 0
      · have hcr : (get_bwt text sa)[r] = '$' :=
          (code_sentinel_iff hok hs hrlt (by omega)).mpr hz
        rw [hz, hcr]
        simp [Ne.symm hcne]
      · have hsrl : sa[r] < text.length := ssa_elem_lt hs hrlt
        have hcr : (get_bwt text sa)[r] = text[sa[r] - 1] :=
          code_getElem_of_pos hs hrlt hz (by omega) (by omega)
        have hgd2 : text.getD (sa[r] - 1) ' ' = text[sa[r] - 1] :=
          List.getD_eq_getElem text ' ' (by omega)
        have hlex : listLexLt (text.drop sa[r]) (text.drop p0) = decide (r < row) := by
          apply bool_eq_of_iff
          rw [decide_eq_true_eq]
          exact ssa_index_lt_iff hs hrlt hrow
        have h1le : decide (1 ≤ sa[r]) = true := by
          rw [decide_eq_true_eq]
          omega
        rw [hcr, hgd2, hlex, h1le]
        simp
    have hd5 : (List.range sa.length).countP
          (fun r => decide ((get_bwt text sa).getD r ' ' = c) && decide (r < row)) =
        ((get_bwt text sa).take row).count c := by
      have hsplitlen : sa.length = row + (sa.length - row) := by omega
      conv_lhs => rw [hsplitlen]
      rw [List.range_add, List.countP_append, List.countP_map]
      have hc2 : (List.range (sa.length - row)).countP
            ((fun r => decide ((get_bwt text sa).getD r ' ' = c) && decide (r < row)) ∘
              (fun x => row + x)) = 0 := by
        rw [List.countP_eq_zero]
        intro a _
        simp only [Function.comp_apply]
        have : ¬(row + a < row) := by omega
        simp [this]
      rw [hc2, Nat.add_zero]
      have hc3 : (List.range row).countP
            (fun r => decide ((get_bwt text sa).getD r ' ' = c) && decide (r < row)) =
          (List.range row).countP (fun r => decide ((get_bwt text sa).getD r ' ' = c)) := by
        apply List.countP_congr
        intro r hr
        have : r < row := List.mem_range.mp hr
        simp [this]
      rw [hc3]
      exact (count_take_range (get_bwt text sa) ' ' c row (by omega)).symm
    rw [hleft, ← hright, hd2, hd3, hd4, hd5]
  have hcount : ((get_bwt text sa).take (row + 1)).count c =
      ((get_bwt text sa).take row).count c + 1 := by
    rw [List.take_succ, List.count_append,
      List.getElem?_eq_getElem (show row < (get_bwt text sa).length by omega)]
    simp [List.count_cons, hcdef]
  rw [hcount, hposIn, hstepA, hstepB, hstepC, hstepD]
  omega

end Humdum

/-! ### The compressed suffix array, bit-vector and bucket table -/

namespace Humdum

theorem compressLoop_cons (comp step num : Nat) (rest : List Nat) (idx rnk : Nat) :
    compressLoop comp step (num :: rest) idx rnk =
      ((if num % comp = 0 then
          num :: (compressLoop comp step rest (idx + 1)
            (if num % comp = 0 then rnk + 1 else rnk)).1
        else (compressLoop comp step rest (idx + 1)
          (if num % comp = 0 then rnk + 1 else rnk)).1),
       decide (num % comp = 0) ::
         (compressLoop comp step rest (idx + 1)
           (if num % comp = 0 then rnk + 1 else rnk)).2.1,
       (if 0 < idx ∧ idx % step = 0 then
          (if num % comp = 0 then rnk + 1 else rnk) ::
            (compressLoop comp step rest (idx + 1)
              (if num % comp = 0 then rnk + 1 else rnk)).2.2
        else (compressLoop comp step rest (idx + 1)
          (if num % comp = 0 then rnk + 1 else rnk)).2.2)) := by
  rcases hcl : compressLoop comp step rest (idx + 1)
    (if num % comp = 0 then rnk + 1 else rnk) with ⟨sc, bits, buck⟩
  simp [compressLoop, hcl]

theorem compressLoop_cons_sc (comp step num : Nat) (rest : List Nat) (idx rnk : Nat) :
    (compressLoop comp step (num :: rest) idx rnk).1 =
      if num % comp = 0 then
        num :: (compressLoop comp step rest (idx + 1)
          (if num % comp = 0 then rnk + 1 else rnk)).1
      else (compressLoop comp step rest (idx + 1)
        (if num % comp = 0 then rnk + 1 else rnk)).1 := by
  rw [compressLoop_cons]

theorem compressLoop_cons_bits (comp step num : Nat) (rest : List Nat) (idx rnk : Nat) :
    (compressLoop comp step (num :: rest) idx rnk).2.1 =
      decide (num % comp = 0) ::
        (compressLoop comp step rest (idx + 1)
          (if num % comp = 0 then rnk + 1 else rnk)).2.1 := by
  rw [compressLoop_cons]

theorem compressLoop_cons_bucket (comp step num : Nat) (rest : List Nat) (idx rnk : Nat) :
    (compressLoop comp step (num :: rest) idx rnk).2.2 =
      if 0 < idx ∧ idx % step = 0 then
        (if num % comp = 0 then rnk + 1 else rnk) ::
          (compressLoop comp step rest (idx + 1)
            (if num % comp = 0 then rnk + 1 else rnk)).2.2
      else (compressLoop comp step rest (idx + 1)
        (if num % comp = 0 then rnk + 1 else rnk)).2.2 := by
  rw [compressLoop_cons]

theorem compressLoop_bits (comp step : Nat) :
    ∀ (l : List Nat) (idx rnk : Nat),
      (compressLoop comp step l idx rnk).2.1 = l.map (fun v => decide (v % comp = 0)) := by
  intro l
  induction l with
  | nil => intro idx rnk; simp [compressLoop]
  | cons num rest ih =>
    intro idx rnk
    rw [compressLoop_cons_bits]
    simp only [List.map_cons]
    rw [ih]

theorem compressLoop_sc (comp step : Nat) :
    ∀ (l : List Nat) (idx rnk : Nat),
      (compressLoop comp step l idx rnk).1 = l.filter (fun v => decide (v % comp = 0)) := by
  intro l
  induction l with
  | nil => intro idx rnk; simp [compressLoop]
  | cons num rest ih =>
    intro idx rnk
    rw [compressLoop_cons_sc, List.filter_cons]
    by_cases hnum : num % comp = 0
    · simp only [if_pos hnum, if_pos (show decide (num % comp = 0) = true by simpa using hnum)]
      rw [ih]
    · simp only [if_neg hnum,
        if_neg (show ¬ decide (num % comp = 0) = true by simpa using hnum)]
      rw [ih]

theorem compressLoop_bucket (comp step : Nat) :
    ∀ (l : List Nat) (idx rnk : Nat),
      (compressLoop comp step l idx rnk).2.2 =
        ((List.range' idx l.length).filter (fun i => decide (0 < i ∧ i % step = 0))).map
          (fun i => rnk + (l.take (i - idx + 1)).countP (fun v => decide (v % comp = 0))) := by
  intro l
  induction l with
  | nil => intro idx rnk; simp [compressLoop]
  | cons num rest ih =>
    intro idx rnk
    rw [compressLoop_cons_bucket]
    simp only [List.length_cons]
    rw [List.range'_succ, List.filter_cons]
    have hmaps :
        (List.filter (fun i => decide (0 < i ∧ i % step = 0))
            (List.range' (idx + 1) rest.length)).map
          (fun i => (if num % comp = 0 then rnk + 1 else rnk) +
            (rest.take (i - (idx + 1) + 1)).countP (fun v => decide (v % comp = 0))) =
        (List.filter (fun i => decide (0 < i ∧ i % step = 0))
            (List.range' (idx + 1) rest.length)).map
          (fun i => rnk +
            ((num :: rest).take (i - idx + 1)).countP (fun v => decide (v % comp = 0))) := by
      apply List.map_congr_left
      intro i hi
      have hmem : i ∈ List.range' (idx + 1) rest.length := List.mem_of_mem_filter hi
      rcases List.mem_range'.mp hmem with ⟨k, hk, rfl⟩
      have h1 : idx + 1 + 1 * k - idx + 1 = (idx + 1 + 1 * k - (idx + 1) + 1) + 1 := by omega
      rw [h1, List.take_succ_cons, List.countP_cons]
      by_cases hnum : num % comp = 0 <;> simp [hnum] <;> omega
    by_cases hb : 0 < idx ∧ idx % step = 0
    · simp only [if_pos hb,
        if_pos (show decide (0 < idx ∧ idx % step = 0) = true by simpa using hb)]
      rw [List.map_cons, ih (idx + 1) _, hmaps]
      congr 1
      have h3 : idx - idx + 1 = 1 := by omega
      rw [h3]
      have h4 : (num :: rest).take 1 = [num] := rfl
      rw [h4]
      by_cases hnum : num % comp = 0 <;> simp [List.countP_cons, hnum]
    · simp only [if_neg hb,
        if_neg (show ¬ decide (0 < idx ∧ idx % step = 0) = true by simpa using hb)]
      rw [ih (idx + 1) _, hmaps]

theorem bits_length (text : List Char) (sa : List Nat) (occ csa : Nat) (h : csa ≠ 1) :
    (buildWith text sa occ csa).bitvector.length = sa.length := by
  rw [buildWith_bits_of_ne text sa occ csa h, compressLoop_bits]
  simp

theorem bits_getD (text : List Char) (sa : List Nat) (occ csa : Nat) (h : csa ≠ 1)
    {r : Nat} (hr : r < sa.length) :
    (buildWith text sa occ csa).bitvector.getD r false = decide (sa[r] % csa = 0) := by
  rw [buildWith_bits_of_ne text sa occ csa h, compressLoop_bits]
  rw [List.getD_eq_getElem _ false (by simpa using hr), List.getElem_map]

theorem count_true_map (pred : α → Bool) (l : List α) :
    (l.map pred).count true = l.countP pred := by
  rw [List.count, List.countP_map]
  apply List.countP_congr
  intro a _
  simp

end Humdum

/-! ### Rank of a bit -/

namespace Humdum

theorem log2_pos {m : Nat} (hm : 2 ≤ m) : 1 ≤ Nat.log2 m := by
  rw [Nat.log2, if_pos hm]
  omega

theorem bucket_eq (sa : List Nat) (csa step : Nat) (hstep : 1 ≤ step) (hne : sa ≠ []) :
    (if sa.getD 0 0 % csa = 0 then 1 else 0) :: (compressLoop csa step sa 0 0).2.2 =
      (List.range ((sa.length - 1) / step + 1)).map
        (fun k => (sa.take (k * step + 1)).countP (fun v => decide (v % csa = 0))) := by
  rw [compressLoop_bucket]
  have hm1 : 0 < sa.length := List.length_pos.mpr hne
  have hrange0 : List.range' 0 sa.length = 0 :: List.range' 1 (sa.length - 1) := by
    conv_lhs => rw [show sa.length = (sa.length - 1) + 1 from by omega]
    rw [List.range'_succ]
  rw [hrange0, List.filter_cons]
  have hz : ¬ decide ((0 < (0:Nat)) ∧ (0:Nat) % step = 0) = true := by simp
  rw [if_neg hz]
  have hfc : (List.range' 1 (sa.length - 1)).filter (fun i => decide (0 < i ∧ i % step = 0)) =
      (List.range' 1 (sa.length - 1)).filter (fun i => decide (i % step = 0)) := by
    apply List.filter_congr
    intro x hx
    rcases List.mem_range'.mp hx with ⟨k, hk, rfl⟩
    have hp : 0 < 1 + 1 * k := by omega
    simp [hp]
  rw [hfc, filter_mod_range' step hstep, List.range_succ_eq_map, List.map_cons, List.map_map,
    List.range'_eq_map_range, List.map_map, List.map_map]
  congr 1
  · rcases sa with _ | ⟨x, rest⟩
    · exact absurd rfl hne
    · have h1 : (x :: rest).take (0 * step + 1) = [x] := by
        rw [Nat.zero_mul]
        rfl
      rw [h1]
      by_cases hx : x % csa = 0 <;> simp [List.countP_cons, hx]
  · apply List.map_congr_left
    intro k _
    simp only [Function.comp_apply]
    have h1 : (1 + k) * step - 0 + 1 = (1 + k) * step + 1 := by omega
    rw [h1]
    have h2 : Nat.succ k * step = (1 + k) * step := by
      rw [Nat.succ_mul]
      ring
    rw [h2]
    omega

theorem bucket_length (text : List Char) (sa : List Nat) (occ csa : Nat) (h : csa ≠ 1)
    (hstep : 1 ≤ Nat.log2 text.length) (hne : sa ≠ []) :
    (buildWith text sa occ csa).bucket.length =
      (sa.length - 1) / Nat.log2 text.length + 1 := by
  rw [buildWith_bucket_of_ne text sa occ csa h,
    bucket_eq sa csa (Nat.log2 text.length) hstep hne]
  simp

theorem bucket_getD (text : List Char) (sa : List Nat) (occ csa : Nat) (h : csa ≠ 1)
    (hstep : 1 ≤ Nat.log2 text.length) (hne : sa ≠ []) (bi : Nat)
    (hbi : bi ≤ (sa.length - 1) / Nat.log2 text.length) :
    (buildWith text sa occ csa).bucket.getD bi 0 =
      (sa.take (bi * Nat.log2 text.length + 1)).countP (fun v => decide (v % csa = 0)) := by
  rw [buildWith_bucket_of_ne text sa occ csa h,
    bucket_eq sa csa (Nat.log2 text.length) hstep hne]
  have hlt : bi < ((List.range ((sa.length - 1) / Nat.log2 text.length + 1)).map
      (fun k => (sa.take (k * Nat.log2 text.length + 1)).countP
        (fun v => decide (v % csa = 0)))).length := by
    simp
    omega
  rw [List.getD_eq_getElem _ 0 hlt, List.getElem_map, List.getElem_range]

theorem sumBits_eq (bits : List Bool) :
    ∀ (steps start : Nat), start + steps ≤ bits.length →
      sumBits bits start steps = some (((bits.drop start).take steps).count true) := by
  intro steps
  induction steps with
  | zero => intro start _; simp [sumBits]
  | succ steps ih =>
    intro start hb
    have hstart : start < bits.length := by omega
    simp only [sumBits, if_pos hstart]
    rw [ih (start + 1) (by omega)]
    have hdrop : bits.drop start = bits[start] :: bits.drop (start + 1) :=
      List.drop_eq_getElem_cons hstart
    rw [hdrop, List.take_succ_cons, List.count_cons,
      List.getD_eq_getElem bits false hstart]
    cases hbs : bits[start] <;> simp [hbs] <;> omega

theorem rank_bit_eq (text : List Char) (sa : List Nat) (occ csa : Nat)
    (hlen : sa.length = text.length) (hm : 2 ≤ text.length) (hcsa : 2 ≤ csa)
    (i : Nat) (hi : i < text.length) :
    rank_bit (buildWith text sa occ csa) i =
      some ((sa.take (i + 1)).countP (fun v => decide (v % csa = 0))) := by
  have hne1 : csa ≠ 1 := by omega
  have hne : sa ≠ [] := by
    intro h
    rw [h] at hlen
    simp at hlen
    omega
  have hstep : 1 ≤ Nat.log2 text.length := log2_pos hm
  have hbits : (buildWith text sa occ csa).bitvector =
      sa.map (fun v => decide (v % csa = 0)) := by
    rw [buildWith_bits_of_ne text sa occ csa hne1, compressLoop_bits]
  have hble : i / Nat.log2 text.length * Nat.log2 text.length ≤ i :=
    Nat.div_mul_le_self i (Nat.log2 text.length)
  have hsum : sumBits (buildWith text sa occ csa).bitvector
      (i / Nat.log2 text.length * Nat.log2 text.length + 1)
      (i - i / Nat.log2 text.length * Nat.log2 text.length) =
      some ((((buildWith text sa occ csa).bitvector.drop
        (i / Nat.log2 text.length * Nat.log2 text.length + 1)).take
        (i - i / Nat.log2 text.length * Nat.log2 text.length)).count true) := by
    apply sumBits_eq
    rw [hbits]
    simp
    omega
  have hbi : i / Nat.log2 text.length ≤ (sa.length - 1) / Nat.log2 text.length := by
    apply Nat.div_le_div_right
    omega
  have hblen : (buildWith text sa occ csa).bucket.length =
      (sa.length - 1) / Nat.log2 text.length + 1 :=
    bucket_length text sa occ csa hne1 hstep hne
  unfold rank_bit
  rw [buildWith_csa, buildWith_step]
  rw [if_neg (show ¬ csa = 0 by omega), if_neg (show ¬ Nat.log2 text.length = 0 by omega)]
  simp only [hsum]
  rw [if_pos (show i / Nat.log2 text.length < (buildWith text sa occ csa).bucket.length by
    rw [hblen]; omega)]
  rw [bucket_getD text sa occ csa hne1 hstep hne (i / Nat.log2 text.length) hbi]
  have hcount : (((buildWith text sa occ csa).bitvector.drop
      (i / Nat.log2 text.length * Nat.log2 text.length + 1)).take
      (i - i / Nat.log2 text.length * Nat.log2 text.length)).count true =
      ((sa.drop (i / Nat.log2 text.length * Nat.log2 text.length + 1)).take
        (i - i / Nat.log2 text.length * Nat.log2 text.length)).countP
        (fun v => decide (v % csa = 0)) := by
    rw [hbits, ← List.map_drop, ← List.map_take, count_true_map]
  rw [hcount]
  have hsplit : sa.take (i + 1) =
      sa.take (i / Nat.log2 text.length * Nat.log2 text.length + 1) ++
        (sa.drop (i / Nat.log2 text.length * Nat.log2 text.length + 1)).take
          (i - i / Nat.log2 text.length * Nat.log2 text.length) := by
    have h1 : i + 1 = (i / Nat.log2 text.length * Nat.log2 text.length + 1) +
        (i - i / Nat.log2 text.length * Nat.log2 text.length) := by omega
    rw [h1]
    exact List.take_add _ _ _
  rw [hsplit, List.countP_append]

end Humdum

/-! ### Correctness of get_sa -/

namespace Humdum

theorem sc_getD (text : List Char) (sa : List Nat) (occ csa : Nat) (hne1 : csa ≠ 1)
    {r : Nat} (hr : r < sa.length) (hsamp : sa[r] % csa = 0) :
    (buildWith text sa occ csa).sa.getD
      ((sa.take (r + 1)).countP (fun v => decide (v % csa = 0)) - 1) 0 = sa[r] := by
  rw [buildWith_sa_of_ne text sa occ csa hne1, compressLoop_sc]
  exact filter_getD_countP sa 0 _ r hr (by simpa using hsamp)

theorem lfWalk_sound (text : List Char) (sa : List Nat) (occ csa : Nat) (hok : OkText text)
    (hm : 2 ≤ text.length) (hs : SortedSA text sa) (hocc : 1 ≤ occ) (hcsa : 2 ≤ csa) :
    ∀ (s fuel row cnt : Nat) (hrow : row < sa.length), sa[row] % csa = s → s < fuel →
      ∃ rend, ∃ hre : rend < sa.length, sa[rend] % csa = 0 ∧ sa[rend] = sa[row] - s ∧
        lfWalk (buildWith text sa occ csa) fuel row cnt = some (rend, cnt + s) := by
  have hne1 : csa ≠ 1 := by omega
  have hsalen : sa.length = text.length := ssa_length hs
  intro s
  induction s with
  | zero =>
    intro fuel row cnt hrow hmod hfuel
    refine ⟨row, hrow, hmod, by omega, ?_⟩
    match fuel, hfuel with
    | f + 1, _ =>
      simp only [lfWalk]
      rw [bits_getD text sa occ csa hne1 hrow, if_pos (by simpa using hmod)]
      simp
  | succ s ih =>
    intro fuel row cnt hrow hmod hfuel
    match fuel, hfuel with
    | f + 1, _ =>
      have hmodlt : sa[row] % csa < csa := Nat.mod_lt _ (by omega)
      have hnz : sa[row] ≠ 0 := by
        intro h
        rw [h] at hmod
        simp at hmod
      have hrowc : row < (get_bwt text sa).length := by rw [code_length]; exact hrow
      have hselt : sa[row] < text.length := ssa_elem_lt hs hrow
      have hns : (get_bwt text sa)[row] ≠ '$' :=
        fun h => hnz ((code_sentinel_iff hok hs hrow hrowc).mp h)
      have hlf := lf_correct text sa hok hm hs row hrow hrowc hns
      have hchalpha : (get_bwt text sa)[row] ∈ alphaChars := by
        rw [code_getElem_of_pos hs hrow hnz hrowc (by omega)]
        exact okt_alpha hok (by omega)
      have hrank := rank_eq_count text sa occ csa hok hm hs hocc
        ((get_bwt text sa)[row]) (List.mem_cons_of_mem _ hchalpha) row (by omega)
      -- the next row of the walk
      have hp1lt : sa[row] - 1 < text.length := by
        have := ssa_elem_lt hs hrow
        omega
      have hrow2lt : posIn sa (sa[row] - 1) < sa.length := posIn_lt hs hp1lt
      have hrow2val : sa[posIn sa (sa[row] - 1)] = sa[row] - 1 :=
        getElem_posIn hs hp1lt hrow2lt
      have hmod2 : (sa[row] - 1) % csa = s := by
        have hdm := Nat.div_add_mod sa[row] csa
        have h1 : sa[row] - 1 = csa * (sa[row] / csa) + s := by omega
        rw [h1, Nat.mul_add_mod]
        exact Nat.mod_eq_of_lt (by omega)
      have hgd : (buildWith text sa occ csa).code.getD row ' ' =
          (get_bwt text sa)[row] := by
        rw [buildWith_code]
        exact List.getD_eq_getElem _ ' ' hrowc
      simp only [lfWalk]
      rw [bits_getD text sa occ csa hne1 hrow,
        if_neg (by simp only [decide_eq_true_eq]; omega)]
      rw [hgd, hrank, buildWith_f]
      have hLF : ((get_bwt text sa).take (row + 1)).count ((get_bwt text sa)[row]) +
          shifts_f text ((get_bwt text sa)[row]) - 1 = posIn sa (sa[row] - 1) := by
        have := hlf.2
        omega
      rw [hLF]
      have hmod2' : sa[posIn sa (sa[row] - 1)] % csa = s := by
        rw [hrow2val]
        exact hmod2
      rcases ih f (posIn sa (sa[row] - 1)) (cnt + 1) hrow2lt hmod2' (by omega) with
        ⟨rend, hre, hre0, hreval, hrun⟩
      refine ⟨rend, hre, hre0, ?_, ?_⟩
      · rw [hreval, hrow2val]
        omega
      · rw [hrun]
        have : cnt + 1 + s = cnt + (s + 1) := by omega
        rw [this]

theorem get_sa_eq (text : List Char) (sa : List Nat) (occ csa : Nat) (hok : OkText text)
    (hm : 2 ≤ text.length) (hs : SortedSA text sa) (hocc : 1 ≤ occ) (hcsa : 1 ≤ csa)
    (i : Nat) (hi : i < text.length) :
    get_sa (buildWith text sa occ csa) i = some (sa.getD i 0) := by
  have hsalen : sa.length = text.length := ssa_length hs
  have hrowlen : i < sa.length := by omega
  have hgdi : sa.getD i 0 = sa[i] := List.getD_eq_getElem sa 0 hrowlen
  by_cases hcsa1 : csa = 1
  · subst hcsa1
    unfold get_sa
    rw [buildWith_csa, if_pos rfl, buildWith_sa_one]
  · have hcsa2 : 2 ≤ csa := by omega
    unfold get_sa
    rw [buildWith_csa, if_neg hcsa1]
    by_cases hsamp : sa[i] % csa = 0
    · rw [bits_getD text sa occ csa hcsa1 hrowlen, if_pos (by simpa using hsamp)]
      simp only [rank_bit_eq text sa occ csa hsalen hm hcsa2 i hi]
      rw [sc_getD text sa occ csa hcsa1 hrowlen hsamp, hgdi]
    · rw [bits_getD text sa occ csa hcsa1 hrowlen, if_neg (by simpa using hsamp)]
      have hfuel : (buildWith text sa occ csa).code.length = sa.length := by
        rw [buildWith_code, code_length]
      have helt : sa[i] < text.length := ssa_elem_lt hs hrowlen
      have hslt : sa[i] % csa < sa.length := by
        have : sa[i] % csa ≤ sa[i] := Nat.mod_le _ _
        omega
      rcases lfWalk_sound text sa occ csa hok hm hs hocc hcsa2 (sa[i] % csa)
          (buildWith text sa occ csa).code.length i 0 hrowlen rfl (by rw [hfuel]; omega) with
        ⟨rend, hre, hre0, hreval, hrun⟩
      simp only [hrun]
      simp only [rank_bit_eq text sa occ csa hsalen hm hcsa2 rend (by omega)]
      rw [sc_getD text sa occ csa hcsa1 hre hre0]
      rw [hreval, hgdi]
      have hmodle : sa[i] % csa ≤ sa[i] := Nat.mod_le _ _
      have : sa[i] - sa[i] % csa + (0 + sa[i] % csa) = sa[i] := by omega
      rw [this]

end Humdum

/-! ### Correctness of the reconstruction loop -/

namespace Humdum

theorem posIn_last {text : List Char} {sa : List Nat} (hok : OkText text)
    (hs : SortedSA text sa) : posIn sa (text.length - 1) = 0 := by
  have h0 : 0 < sa.length := by
    rw [ssa_length hs]
    exact okt_length_pos hok
  exact posIn_eq_of_getElem hs h0 (ssa_first hok hs h0)

theorem code_getD_posIn {text : List Char} {sa : List Nat} (hok : OkText text)
    (hs : SortedSA text sa) {p : Nat} (hp : p < text.length) (hp1 : 1 ≤ p) :
    (get_bwt text sa).getD (posIn sa p) ' ' = text[p - 1] := by
  have hr : posIn sa p < sa.length := posIn_lt hs hp
  have hcl : (get_bwt text sa).length = sa.length := code_length text sa
  have hrs : sa[posIn sa p] = p := getElem_posIn hs hp hr
  have hgd : (get_bwt text sa).getD (posIn sa p) ' ' =
      (get_bwt text sa)[posIn sa p] :=
    List.getD_eq_getElem _ ' ' (by omega)
  rw [hgd]
  have := code_getElem_of_pos hs hr (by omega) (by omega) (by rw [hrs]; omega)
  simp only [hrs] at this
  exact this

theorem reconLoop_eq (text : List Char) (sa : List Nat) (occ csa : Nat) (hok : OkText text)
    (hm : 2 ≤ text.length) (hs : SortedSA text sa) (hocc : 1 ≤ occ) :
    ∀ (k p : Nat) (acc : List Char), k ≤ p - 1 → 1 ≤ p → p < text.length →
      reconLoop (buildWith text sa occ csa) k (posIn sa p) (text.getD (p - 1) ' ') acc =
        ((text.drop (p - 1 - k)).take k) ++ acc := by
  intro k
  induction k with
  | zero =>
    intro p acc _ _ _
    simp [reconLoop]
  | succ k ih =>
    intro p acc hk hp1 hpm
    have hp2 : 2 ≤ p := by omega
    have hrow : posIn sa p < sa.length := posIn_lt hs hpm
    have hrowc : posIn sa p < (get_bwt text sa).length := by rw [code_length]; exact hrow
    have hrs : sa[posIn sa p] = p := getElem_posIn hs hpm hrow
    have hchc : (get_bwt text sa)[posIn sa p] = text[p - 1] := by
      have := code_getElem_of_pos hs hrow (by omega) hrowc (by rw [hrs]; omega)
      simp only [hrs] at this
      exact this
    have hchalpha : (get_bwt text sa)[posIn sa p] ∈ alphaChars := by
      rw [hchc]
      exact okt_alpha hok (by omega)
    have hns : (get_bwt text sa)[posIn sa p] ≠ '$' := alpha_ne_sentinel hchalpha
    have hgdch : text.getD (p - 1) ' ' = (get_bwt text sa)[posIn sa p] := by
      rw [hchc]
      exact List.getD_eq_getElem text ' ' (by omega)
    have hrank := rank_eq_count text sa occ csa hok hm hs hocc
      ((get_bwt text sa)[posIn sa p]) (List.mem_cons_of_mem _ hchalpha)
      (posIn sa p) (by rw [← ssa_length hs]; exact hrow)
    have hlf := lf_correct text sa hok hm hs (posIn sa p) hrow hrowc hns
    have hLF : ((get_bwt text sa).take (posIn sa p + 1)).count
          ((get_bwt text sa)[posIn sa p]) +
        shifts_f text ((get_bwt text sa)[posIn sa p]) - 1 = posIn sa (p - 1) := by
      have h2 := hlf.2
      simp only [hrs] at h2
      omega
    simp only [reconLoop]
    rw [hgdch, hrank, buildWith_f, hLF, buildWith_code]
    have hch2 : (get_bwt text sa).getD (posIn sa (p - 1)) ' ' =
        text.getD (p - 1 - 1) ' ' := by
      rw [code_getD_posIn hok hs (by omega) (by omega)]
      exact (List.getD_eq_getElem text ' ' (by omega)).symm
    rw [hch2]
    rw [ih (p - 1) (text.getD (p - 1 - 1) ' ' :: acc) (by omega) (by omega) (by omega)]
    have harr : p - 1 - 1 - k = p - 1 - (k + 1) := by omega
    rw [harr]
    have hlast : (text.drop (p - 1 - (k + 1))).take (k + 1) =
        (text.drop (p - 1 - (k + 1))).take k ++ [text.getD (p - 1 - 1) ' '] := by
      rw [List.take_succ]
      congr 1
      have hidx : (text.drop (p - 1 - (k + 1)))[k]? = some (text.getD (p - 1 - 1) ' ') := by
        rw [List.getElem?_drop]
        have h1 : p - 1 - (k + 1) + k = p - 1 - 1 := by omega
        rw [h1, List.getElem?_eq_getElem (show p - 1 - 1 < text.length by omega)]
        rw [List.getD_eq_getElem text ' ' (show p - 1 - 1 < text.length by omega)]
      rw [hidx]
      rfl
    rw [hlast, List.append_assoc]
    rfl

theorem reconstructS_eq (text : List Char) (sa : List Nat) (occ csa : Nat) (hok : OkText text)
    (hm : 2 ≤ text.length) (hs : SortedSA text sa) (hocc : 1 ≤ occ) :
    reconstructS (buildWith text sa occ csa) = text.take (text.length - 1) := by
  simp only [reconstructS]
  rw [buildWith_code, code_length, ssa_length hs]
  have h0 : (0 : Nat) = posIn sa (text.length - 1) := (posIn_last hok hs).symm
  have hch0 : (get_bwt text sa).getD 0 ' ' = text.getD (text.length - 1 - 1) ' ' := by
    rw [h0, code_getD_posIn hok hs (by omega) (by omega)]
    exact (List.getD_eq_getElem text ' ' (by omega)).symm
  rw [hch0, h0]
  rw [reconLoop_eq text sa occ csa hok hm hs hocc (text.length - 1 - 1) (text.length - 1)
    [text.getD (text.length - 1 - 1) ' '] (by omega) (by omega) (by omega)]
  have h1 : text.length - 1 - 1 - (text.length - 1 - 1) = 0 := by omega
  rw [h1, List.drop_zero]
  have h2 : text.take (text.length - 1) =
      text.take (text.length - 1 - 1) ++ [text.getD (text.length - 1 - 1) ' '] := by
    conv_lhs => rw [show text.length - 1 = (text.length - 1 - 1) + 1 from by omega]
    rw [List.take_succ]
    congr 1
    rw [List.getElem?_eq_getElem (show text.length - 1 - 1 < text.length by omega)]
    rw [List.getD_eq_getElem text ' ' (show text.length - 1 - 1 < text.length by omega)]
    rfl
  rw [h2]

end Humdum

/-! ### Properties of the mapper -/

namespace Aligner03

theorem rev_is_forward (r : Read) : r.rev.is_forward = !r.is_forward := rfl

theorem rev_ne (r : Read) : r.rev ≠ r := by
  intro h
  have h2 : r.rev.is_forward = r.is_forward := by rw [h]
  rw [rev_is_forward] at h2
  cases hb : r.is_forward <;> rw [hb] at h2 <;> simp at h2

theorem map_one_eq (hits : Read → List (Nat × Nat)) (r : Read) :
    map_one hits r =
      if (hits r.rev).length > (hits r).length then (r.rev, hits r.rev)
      else (r, hits r) := rfl

theorem map_pair_eq (hits : Read → List (Nat × Nat)) (refG : List Char) (r1 r2 : Read) :
    map_pair hits refG r1 r2 =
      if (map_one hits r1).1.is_forward = (map_one hits r2).1.is_forward then .error ()
      else if (map_one hits r1).2.isEmpty || (map_one hits r2).2.isEmpty then .error ()
      else .ok
        ({ mkSeg refG (map_one hits r1).1 (map_one hits r1).2 with
             pnext := (mkSeg refG (map_one hits r2).1 (map_one hits r2).2).pos },
         { mkSeg refG (map_one hits r2).1 (map_one hits r2).2 with
             pnext := (mkSeg refG (map_one hits r1).1 (map_one hits r1).2).pos }) := rfl

theorem map_paired_loop (hits : Read → List (Nat × Nat)) (refG : List Char)
    (pairs : List (Read × Read)) :
    ∀ acc : List Seg × Nat,
      pairs.foldl
        (fun acc pr =>
          match map_pair hits refG pr.1 pr.2 with
          | .ok (s1, s2) => (acc.1 ++ [s1, s2], acc.2)
          | .error _ => (acc.1, acc.2 + 1))
        acc =
      (acc.1 ++ (pairs.map (fun pr =>
          match map_pair hits refG pr.1 pr.2 with
          | .ok (s1, s2) => [s1, s2]
          | .error _ => [])).flatten,
       acc.2 + pairs.countP (fun pr => !(expOk (map_pair hits refG pr.1 pr.2)))) := by
  induction pairs with
  | nil => intro acc; simp
  | cons pr rest ih =>
    intro acc
    rw [List.foldl_cons]
    cases hmp : map_pair hits refG pr.1 pr.2 with
    | ok p =>
      obtain ⟨t1, t2⟩ := p
      rw [ih]
      simp [List.countP_cons, expOk, hmp, List.append_assoc]
    | error e =>
      rw [ih]
      simp [List.countP_cons, expOk, hmp]
      omega

theorem map_paired_eq (hits : Read → List (Nat × Nat)) (refG : List Char)
    (pairs : List (Read × Read)) :
    map_paired hits refG pairs =
      ((pairs.map (fun pr =>
          match map_pair hits refG pr.1 pr.2 with
          | .ok (s1, s2) => [s1, s2]
          | .error _ => [])).flatten,
       pairs.countP (fun pr => !(expOk (map_pair hits refG pr.1 pr.2)))) := by
  unfold map_paired
  rw [map_paired_loop hits refG pairs ([], 0)]
  simp

end Aligner03

/-! ### The claims -/

namespace Humdum

theorem indexOf_sentinel {text : List Char} {sa : List Nat} (hok : OkText text)
    (hs : SortedSA text sa) : (get_bwt text sa).indexOf '$' = posIn sa 0 := by
  have hlt : posIn sa 0 < (get_bwt text sa).length := by
    rw [code_length]; exact posIn_zero_lt hok hs
  have hmem : '$' ∈ get_bwt text sa := by
    rw [List.mem_iff_getElem]
    exact ⟨posIn sa 0, hlt, code_posIn_zero hok hs hlt⟩
  have hidx : (get_bwt text sa).indexOf '$' < (get_bwt text sa).length :=
    List.indexOf_lt_length.mpr hmem
  apply code_sentinel_unique hok hs _ hidx
  exact List.getElem_indexOf hidx

/-- C2 (amended): on every index built from a sentinel-terminated text of
length at least two, `rank c i` equals the number of occurrences of `c` in
the inclusive BWT prefix `BWT[0..i]`, whatever checkpoint branch is taken,
and the sentinel rank is 1 exactly from the sentinel's BWT position on.  The
original claim fails for the one-character text `"$"`. -/
theorem rank_counts_occurrences (text : List Char) (sa : List Nat) (occ csa : Nat)
    (c : Char) (i : Nat) (hok : OkText text) (hm : 2 ≤ text.length)
    (hs : SortedSA text sa) (hocc : 1 ≤ occ) (hc : c ∈ '$' :: alphaChars)
    (hi : i < text.length) :
    rank (buildWith text sa occ csa) c i =
      (((buildWith text sa occ csa).code.take (i + 1)).count c) ∧
    rank (buildWith text sa occ csa) '$' i =
      (if (buildWith text sa occ csa).code.indexOf '$' ≤ i then 1 else 0) := by
  constructor
  · rw [buildWith_code]
    exact rank_eq_count text sa occ csa hok hm hs hocc c hc i hi
  · rw [buildWith_code]
    rw [rank_eq_count text sa occ csa hok hm hs hocc '$' (by simp) i hi]
    rw [count_sentinel_take hok hs i, indexOf_sentinel hok hs]

/-- C2 witness: the amended statement at the text `"ACA$"`, its suffix
array `[3,2,0,1]`, checkpoint spacing 2, symbol `'A'`, row 1. -/
theorem rank_counts_occurrences_witness :
    OkText ['A', 'C', 'A', '$'] ∧ 2 ≤ (['A', 'C', 'A', '$'] : List Char).length ∧
    SortedSA ['A', 'C', 'A', '$'] [3, 2, 0, 1] ∧
    (rank (buildWith ['A', 'C', 'A', '$'] [3, 2, 0, 1] 2 2) 'A' 1 =
        (((buildWith ['A', 'C', 'A', '$'] [3, 2, 0, 1] 2 2).code.take 2).count 'A') ∧
      rank (buildWith ['A', 'C', 'A', '$'] [3, 2, 0, 1] 2 2) '$' 1 =
        (if (buildWith ['A', 'C', 'A', '$'] [3, 2, 0, 1] 2 2).code.indexOf '$' ≤ 1
          then 1 else 0)) :=
  ⟨by decide, by decide, by decide,
    rank_counts_occurrences ['A', 'C', 'A', '$'] [3, 2, 0, 1] 2 2 'A' 1 (by decide)
      (by decide) (by decide) (by decide) (by decide) (by decide)⟩

/-- C2 counterexample: on the one-character text `"$"` the built index
returns `rank '$' 0 = 0` although the sentinel occurs once in `BWT[0..0]`
(the stored sentinel index double-counts the `'$'` at BWT position 0). -/
theorem rank_sentinel_cex :
    rank (build ['$'] 32 32) '$' 0 = 0 ∧
    (((build ['$'] 32 32).code.take 1).count '$') = 1 := by
  decide

/-- C3 (amended): on every index built from a sentinel-terminated text of
length at least two, `get_sa i` returns the uncompressed suffix-array entry
`SA[i]` for every `compression_sa ≥ 1`, through whichever of the three
branches applies.  The original claim fails for the one-character text `"$"`
with `compression_sa > 1`, where `bucket_step = 0` makes `rank_bit` divide
by zero. -/
theorem get_sa_matches_suffix_array (text : List Char) (sa : List Nat) (occ csa i : Nat)
    (hok : OkText text) (hm : 2 ≤ text.length) (hs : SortedSA text sa)
    (hocc : 1 ≤ occ) (hcsa : 1 ≤ csa) (hi : i < text.length) :
    get_sa (buildWith text sa occ csa) i = some (sa.getD i 0) :=
  get_sa_eq text sa occ csa hok hm hs hocc hcsa i hi

/-- C3 witness: the amended statement at the text `"ACA$"`, its suffix
array `[3,2,0,1]`, both compression factors 2, row 2 (an unsampled row that
takes the LF-walk branch). -/
theorem get_sa_matches_suffix_array_witness :
    OkText ['A', 'C', 'A', '$'] ∧ SortedSA ['A', 'C', 'A', '$'] [3, 2, 0, 1] ∧
    get_sa (buildWith ['A', 'C', 'A', '$'] [3, 2, 0, 1] 2 2) 2 =
      some (([3, 2, 0, 1] : List Nat).getD 2 0) :=
  ⟨by decide, by decide,
    get_sa_matches_suffix_array ['A', 'C', 'A', '$'] [3, 2, 0, 1] 2 2 2 (by decide)
      (by decide) (by decide) (by decide) (by decide) (by decide)⟩

/-- C3 counterexample: on the index built from `"$"` with
`compression_sa = 2`, `get_sa 0` fails with a division by zero
(`bucket_step = 0`) instead of returning the suffix-array entry 0. -/
theorem get_sa_crash_cex :
    get_sa (build ['$'] 32 2) 0 = none ∧ (suffix_array_simple ['$']).getD 0 0 = 0 := by
  decide

/-- C4 (amended): reconstruction returns the original text WITHOUT the
terminal sentinel: the `__str__` loop runs only `len(text) - 1` times, so the
final `'$'` is never emitted and the result differs from the
sentinel-terminated text. -/
theorem reconstruct_drops_sentinel (text : List Char) (sa : List Nat) (occ csa : Nat)
    (hok : OkText text) (hm : 2 ≤ text.length) (hs : SortedSA text sa)
    (hocc : 1 ≤ occ) :
    reconstructS (buildWith text sa occ csa) = text.take (text.length - 1) ∧
    reconstructS (buildWith text sa occ csa) ≠ text := by
  have h := reconstructS_eq text sa occ csa hok hm hs hocc
  refine ⟨h, ?_⟩
  rw [h]
  intro hcontra
  have hlen : (text.take (text.length - 1)).length = text.length := by rw [hcontra]
  rw [List.length_take] at hlen
  omega

/-- C4 witness: the amended statement at the text `"ACA$"` and its suffix
array, with both compression factors 32 as in the quoted test grid. -/
theorem reconstruct_drops_sentinel_witness :
    OkText ['A', 'C', 'A', '$'] ∧ SortedSA ['A', 'C', 'A', '$'] [3, 2, 0, 1] ∧
    reconstructS (buildWith ['A', 'C', 'A', '$'] [3, 2, 0, 1] 32 32) = ['A', 'C', 'A'] ∧
    reconstructS (buildWith ['A', 'C', 'A', '$'] [3, 2, 0, 1] 32 32) ≠
      ['A', 'C', 'A', '$'] := by
  have h := reconstruct_drops_sentinel ['A', 'C', 'A', '$'] [3, 2, 0, 1] 32 32 (by decide)
    (by decide) (by decide) (by decide)
  exact ⟨by decide, by decide, h.1, h.2⟩

/-- C4 counterexample: building from the reference `"CA"` (so the stored
text is `"CA$"`) with both compression factors 1, reconstruction returns
`"CA"`, not the sentinel-terminated `"CA$"`. -/
theorem reconstruct_cex :
    reconstructS (build ['C', 'A'] 1 1) = ['C', 'A'] ∧
    reconstructS (build ['C', 'A'] 1 1) ≠ ['C', 'A', '$'] := by
  decide

/-- C5 (amended): the tally sample at checkpoint `k` equals the count of the
symbol in the INCLUSIVE prefix `BWT[0..k*compression_occ]` — that is, in
`BWT[0:k*compression_occ + 1]` — not in the half-open prefix
`BWT[0:k*compression_occ]` of the original claim. -/
theorem tally_checkpoint_inclusive (text : List Char) (sa : List Nat) (occ csa : Nat)
    (c : Char) (k : Nat) (hocc : 1 ≤ occ) (hne : sa ≠ [])
    (hk : k < ((buildWith text sa occ csa).tallyT c).length) :
    ((buildWith text sa occ csa).tallyT c).getD k 0 =
      (((buildWith text sa occ csa).code.take (k * occ + 1)).count c) := by
  have hcode : get_bwt text sa ≠ [] := by
    intro h
    have hcl := code_length text sa
    rw [h] at hcl
    simp at hcl
    exact hne (List.length_eq_zero.mp hcl.symm)
  rw [buildWith_tallyT] at hk ⊢
  rw [buildWith_code]
  rw [tallyC_length (get_bwt text sa) occ hocc hcode c] at hk
  exact tallyC_getD (get_bwt text sa) occ hocc hcode c k (by omega)

/-- C5 witness: the amended statement at the text `"ACA$"`, its suffix
array, checkpoint spacing 2, symbol `'A'`, checkpoint 1. -/
theorem tally_checkpoint_inclusive_witness :
    1 ≤ 2 ∧ ([3, 2, 0, 1] : List Nat) ≠ [] ∧
    1 < ((buildWith ['A', 'C', 'A', '$'] [3, 2, 0, 1] 2 2).tallyT 'A').length ∧
    ((buildWith ['A', 'C', 'A', '$'] [3, 2, 0, 1] 2 2).tallyT 'A').getD 1 0 =
      (((buildWith ['A', 'C', 'A', '$'] [3, 2, 0, 1] 2 2).code.take (1 * 2 + 1)).count 'A') :=
  ⟨by decide, by decide, by decide,
    tally_checkpoint_inclusive ['A', 'C', 'A', '$'] [3, 2, 0, 1] 2 2 'A' 1 (by decide)
      (by decide) (by decide)⟩

/-- C5 counterexample: on the index built from the reference `"A"` (text
`"A$"`, BWT `"A$"`) with spacing 1, the stored sample at checkpoint 0 is 1,
but the half-open prefix `BWT[0:0]` of the original claim contains no
`'A'`. -/
theorem tally_checkpoint_cex :
    ((build ['A'] 1 1).tallyT 'A').getD 0 0 = 1 ∧
    (((build ['A'] 1 1).code.take (0 * 1)).count 'A') = 0 := by
  decide

/-- C10: for every index built from a text of length at least two with
`compression_sa ≥ 2`, `rank_bit i` is total on `0 ≤ i < len(text)` — no
division by zero and every bit-vector and bucket access in bounds — while
for the one-character text `"$"` the bucket step is
`floor(log2 1) = 0` and `rank_bit 0` fails, so the length hypothesis is
necessary. -/
theorem rank_bit_total (text : List Char) (sa : List Nat) (occ csa i : Nat)
    (hm : 2 ≤ text.length) (hlen : sa.length = text.length) (hcsa : 2 ≤ csa)
    (hi : i < text.length) :
    ((rank_bit (buildWith text sa occ csa) i).isSome = true) ∧
    (buildWith ['$'] [0] 32 2).bucket_step = 0 ∧
    rank_bit (buildWith ['$'] [0] 32 2) 0 = none := by
  refine ⟨?_, by decide, by decide⟩
  rw [rank_bit_eq text sa occ csa hlen hm hcsa i hi]
  rfl

/-- C10 witness: the statement at the text `"ACA$"`, its suffix array,
`compression_sa = 2`, row 3. -/
theorem rank_bit_total_witness :
    2 ≤ (['A', 'C', 'A', '$'] : List Char).length ∧
    ([3, 2, 0, 1] : List Nat).length = (['A', 'C', 'A', '$'] : List Char).length ∧
    (((rank_bit (buildWith ['A', 'C', 'A', '$'] [3, 2, 0, 1] 2 2) 3).isSome = true) ∧
      (buildWith ['$'] [0] 32 2).bucket_step = 0 ∧
      rank_bit (buildWith ['$'] [0] 32 2) 0 = none) :=
  ⟨by decide, by decide,
    rank_bit_total ['A', 'C', 'A', '$'] [3, 2, 0, 1] 2 2 3 (by decide) (by decide)
      (by decide) (by decide)⟩

end Humdum

namespace Aligner03

/-- C7: `map_one` (with `decide=True`) returns the reverse-complement
orientation exactly when it yields strictly more seed hits than the forward
orientation; on ties (and whenever the reverse complement does not win
strictly) the forward read is returned, and the kept orientation determines
the strand flag of the emitted segment. -/
theorem map_one_orientation (hits : Read → List (Nat × Nat)) (r : Read) :
    ((map_one hits r).1 = r.rev ↔ (hits r.rev).length > (hits r).length) ∧
    ((hits r.rev).length ≤ (hits r).length → map_one hits r = (r, hits r)) ∧
    (map_one hits r).1.is_forward =
      (if (hits r.rev).length > (hits r).length then !r.is_forward
        else r.is_forward) := by
  refine ⟨?_, ?_, ?_⟩
  · rw [map_one_eq]
    by_cases h : (hits r.rev).length > (hits r).length
    · rw [if_pos h]
      exact iff_of_true rfl h
    · rw [if_neg h]
      constructor
      · intro heq
        exact absurd heq.symm (rev_ne r)
      · intro hgt
        exact absurd hgt h
  · intro hle
    rw [map_one_eq, if_neg (by omega)]
  · rw [map_one_eq]
    by_cases h : (hits r.rev).length > (hits r).length
    · rw [if_pos h, if_pos h]
      exact rev_is_forward r
    · rw [if_neg h, if_neg h]

/-- C7 witness: the orientation decision at the concrete oracle `hitsW`
and read `r1W` (forward wins the tie-free comparison 1 hit to 0). -/
theorem map_one_orientation_witness :
    (hitsW r1W.rev).length ≤ (hitsW r1W).length ∧
    map_one hitsW r1W = (r1W, hitsW r1W) :=
  ⟨by decide, (map_one_orientation hitsW r1W).2.1 (by decide)⟩

/-- C6: `map_pair` fails (`UnmappedReadpair`, modelled `Except.error`)
exactly when the two chosen orientations lie on the same strand or either
chosen orientation has zero seed hits; and `map_paired` catches every such
failure, counts it, and goes on: its counter is exactly the number of
failing pairs and its output is the concatenation of the segments of the
succeeding pairs, in order. -/
theorem map_pair_error_handling (hits : Read → List (Nat × Nat)) (refG : List Char) :
    (∀ r1 r2 : Read,
      expOk (map_pair hits refG r1 r2) = false ↔
        ((map_one hits r1).1.is_forward = (map_one hits r2).1.is_forward ∨
          (map_one hits r1).2 = [] ∨ (map_one hits r2).2 = [])) ∧
    (∀ pairs : List (Read × Read),
      (map_paired hits refG pairs).2 =
        pairs.countP (fun pr => !(expOk (map_pair hits refG pr.1 pr.2))) ∧
      (map_paired hits refG pairs).1 =
        (pairs.map (fun pr =>
          match map_pair hits refG pr.1 pr.2 with
          | .ok (s1, s2) => [s1, s2]
          | .error _ => [])).flatten) := by
  constructor
  · intro r1 r2
    rw [map_pair_eq]
    by_cases h1 : (map_one hits r1).1.is_forward = (map_one hits r2).1.is_forward
    · rw [if_pos h1]
      exact iff_of_true rfl (Or.inl h1)
    · rw [if_neg h1]
      by_cases h2 : ((map_one hits r1).2.isEmpty || (map_one hits r2).2.isEmpty) = true
      · rw [if_pos h2]
        simp only [Bool.or_eq_true, List.isEmpty_iff] at h2
        exact iff_of_true rfl (Or.inr h2)
      · rw [if_neg h2]
        simp only [Bool.or_eq_true, List.isEmpty_iff] at h2
        refine iff_of_false (by simp [expOk]) ?_
        intro hor
        rcases hor with ha | hbc
        · exact h1 ha
        · exact h2 hbc
  · intro pairs
    rw [map_paired_eq]
    exact ⟨rfl, rfl⟩

/-- C8: whenever `map_pair` succeeds, the first emitted segment's
mate-position field equals the second segment's position and vice versa. -/
theorem map_pair_mate_linkage (hits : Read → List (Nat × Nat)) (refG : List Char)
    (r1 r2 : Read) (s1 s2 : Seg)
    (h : map_pair hits refG r1 r2 = Except.ok (s1, s2)) :
    s1.pnext = s2.pos ∧ s2.pnext = s1.pos := by
  rw [map_pair_eq] at h
  by_cases h1 : (map_one hits r1).1.is_forward = (map_one hits r2).1.is_forward
  · rw [if_pos h1] at h
    exact absurd h (by simp)
  · rw [if_neg h1] at h
    by_cases h2 : ((map_one hits r1).2.isEmpty || (map_one hits r2).2.isEmpty) = true
    · rw [if_pos h2] at h
      exact absurd h (by simp)
    · rw [if_neg h2] at h
      simp only [Except.ok.injEq, Prod.mk.injEq] at h
      obtain ⟨hs1, hs2⟩ := h
      rw [← hs1, ← hs2]
      exact ⟨rfl, rfl⟩

/-- C8 witness: the concrete mappable pair `(r1W, r2W)` under the oracle
`hitsW` over the reference `refW` — `map_pair` succeeds and the two emitted
segments point at each other. -/
theorem map_pair_mate_linkage_witness :
    map_pair hitsW refW r1W r2W = Except.ok (ws1, ws2) ∧
    ws1.pnext = ws2.pos ∧ ws2.pnext = ws1.pos := by
  have h : map_pair hitsW refW r1W r2W = Except.ok (ws1, ws2) := rfl
  exact ⟨h, map_pair_mate_linkage hitsW refW r1W r2W ws1 ws2 h⟩

set_option maxRecDepth 8000 in
/-- C9 (amended): on the alignment example — reference `"ATGGCCTC"`,
query `"ACGGCTC"`, costs match +1 / mismatch −1 / indel −2 — the scoring
matrix's maximum is 3, first attained at cell (5,5), and the alignment
produced under the documented diagonal-over-up-over-left tie-break has
matching-subsegment span (2,5) in 0-based half-open reference coordinates,
not (3,5) as claimed. -/
theorem sw_example :
    matMax (swMatrix 1 (-1) (-2) "ATGGCCTC".toList "ACGGCTC".toList) = 3 ∧
    firstMaxCell (swMatrix 1 (-1) (-2) "ATGGCCTC".toList "ACGGCTC".toList) = (5, 5) ∧
    matchBlocks (swAlignOps 1 (-1) (-2) "ATGGCCTC".toList "ACGGCTC".toList) =
      [(2, 5)] := by
  decide

set_option maxRecDepth 8000 in
/-- C9 counterexample: on that same example the matching-subsegment span is
not the claimed (3,5) — the produced alignment's single matching block is
(2,5). -/
theorem sw_example_cex :
    matchBlocks (swAlignOps 1 (-1) (-2) "ATGGCCTC".toList "ACGGCTC".toList) ≠
      [(3, 5)] := by
  decide

end Aligner03
